import Mathlib

/-
Shallow embedding of the partition-refinement data structure from
src/openfst/src/include/fst/partition.h (class fst::Partition<T> and its
helpers), used by Hopcroft-style minimization.

Modelling choices, all following the C++ source:
* the template index type T is modelled as Int (the source requires a signed
  integer type; -1 is the "no neighbor" sentinel);
* the two vectors elements_ and classes_ are Lean lists; an access v[i] is
  modelled by idx, which returns the out-of-bounds marker when i is not a
  valid index, since C++ vector::operator[] performs no bounds check there
  (undefined behavior, not a deliberate failure);
* the CHECK(...) macro, which aborts the process when its argument is false,
  is modelled by throwing PErr.check;
* operations are state transformers in the Except PErr monad, written to
  perform reads, writes and checks in the same order as the C++ statements.
-/

namespace Fst

/-- Failure modes of the embedded operations. `check` models the CHECK macro
aborting the process (a deliberate, fail-fast abort). `oob` marks an
out-of-range vector access: in the C++ source such an access is an unchecked
`operator[]`, i.e. undefined behavior, not a deliberate bounds violation.
`nonterm` marks a pointer chase that exceeds its fuel (a cyclic list would
make the C++ loop run forever). -/
inductive PErr where
  | oob : PErr
  | check : PErr
  | nonterm : PErr
deriving DecidableEq, Repr

/-- Per-element record: struct Element of Partition. `yes` is interpreted as
a bool via comparison with the partition's yes_counter_. `next_element` and
`prev_element` are doubly-linked-list neighbors inside the 'no' or 'yes'
sublist of the owning class; a negative value corresponds to NULL. -/
structure Element where
  class_id : Int
  yes : Int
  next_element : Int
  prev_element : Int
deriving DecidableEq, Repr

/-- The element produced by vector::resize for the constructor-less POD
struct Element: value-initialization zero-initializes every field. -/
def Element.default0 : Element := ⟨0, 0, 0, 0⟩

/-- Per-class record: struct Class of Partition. -/
structure PClass where
  size : Int
  yes_size : Int
  no_head : Int
  yes_head : Int
deriving DecidableEq, Repr

/-- The Class() constructor: size 0, yes_size 0, no_head -1, yes_head -1. -/
def PClass.init : PClass := ⟨0, 0, -1, -1⟩

/-- The Partition state: elements_, classes_, visited_classes_ and
yes_counter_, exactly the four data members of the C++ class. -/
structure Partition where
  elements_ : List Element
  classes_ : List PClass
  visited_classes_ : List Int
  yes_counter_ : Int
deriving DecidableEq, Repr

/-- Model of v[i] on a C++ vector with a (possibly negative) signed index:
the value when 0 <= i < v.size(), and the undefined-behavior marker
otherwise. -/
def idx {α : Type} (l : List α) (i : Int) : Except PErr α :=
  if h : 0 ≤ i ∧ i.toNat < l.length then Except.ok (l.get ⟨i.toNat, h.2⟩)
  else Except.error PErr.oob

/-- Model of the assignment v[i] = a (callers only use it at indices that a
preceding idx has validated). -/
def upd {α : Type} (l : List α) (i : Int) (a : α) : List α :=
  if 0 ≤ i then l.set i.toNat a else l

/-- A Partition value before any method ran (empty vectors; yes_counter_
uninitialized in C++, taken as 0 here — Initialize overwrites it). -/
def emptyPartition : Partition := ⟨[], [], [], 0⟩

/-- Partition::Initialize(num_elements): resize elements_, clear classes_
(reserve has no observable effect), set yes_counter_ to 1. Note that
visited_classes_ is left untouched. vector::resize keeps the existing
prefix and value-initializes any new slots. -/
def Initialize (p : Partition) (num_elements : Nat) : Partition :=
  { elements_ := p.elements_.take num_elements ++
      List.replicate (num_elements - p.elements_.length) Element.default0,
    classes_ := [],
    visited_classes_ := p.visited_classes_,
    yes_counter_ := 1 }

/-- Partition::AddClass(): grow classes_ by one default-constructed class and
return the previous number of classes (the new class's index). -/
def AddClass (p : Partition) : Int × Partition :=
  ((p.classes_.length : Int), { p with classes_ := p.classes_ ++ [PClass.init] })

/-- Partition::Add(element_id, class_id): push element_id onto the head of
the 'no' sublist of the class, increment the class size, and set all four
fields of the element record. -/
def Add (p : Partition) (element_id cid : Int) : Except PErr Partition := do
  let this_element ← idx p.elements_ element_id
  let this_class ← idx p.classes_ cid
  let this_class := { this_class with size := this_class.size + 1 }
  let no_head := this_class.no_head
  let elems ←
    if 0 ≤ no_head then do
      let h ← idx p.elements_ no_head
      pure (upd p.elements_ no_head { h with prev_element := element_id })
    else
      pure p.elements_
  let this_class := { this_class with no_head := element_id }
  let this_element := { this_element with
    class_id := cid, yes := 0, next_element := no_head, prev_element := -1 }
  pure { p with elements_ := upd elems element_id this_element,
                classes_ := upd p.classes_ cid this_class }

/-- Partition::Move(element_id, class_id): CHECK the element is not in the
'yes' set, decrement the old class's size, CHECK the size stayed nonnegative
and the old class has an empty 'yes' subset, splice the element out of the
old 'no' list, then Add it to the new class. -/
def Move (p : Partition) (element_id cid : Int) : Except PErr Partition := do
  let element ← idx p.elements_ element_id
  if element.yes = p.yes_counter_ then throw PErr.check
  let old_class ← idx p.classes_ element.class_id
  let old_class := { old_class with size := old_class.size - 1 }
  if ¬ (0 ≤ old_class.size ∧ old_class.yes_size = 0) then throw PErr.check
  let st ←
    if 0 ≤ element.prev_element then do
      let pe ← idx p.elements_ element.prev_element
      pure (upd p.elements_ element.prev_element
              { pe with next_element := element.next_element }, old_class)
    else do
      if old_class.no_head ≠ element_id then throw PErr.check
      pure (p.elements_, { old_class with no_head := element.next_element })
  let elems := st.1
  let old_class := st.2
  let elems ←
    if 0 ≤ element.next_element then do
      let ne ← idx elems element.next_element
      pure (upd elems element.next_element
              { ne with prev_element := element.prev_element })
    else
      pure elems
  Add { p with elements_ := elems,
               classes_ := upd p.classes_ element.class_id old_class }
      element_id cid

/-- Partition::SplitOn(element_id): if the element already carries the
current yes_counter_ tag, return unchanged. Otherwise splice it out of its
class's 'no' list, push it onto the 'yes' list (recording the class in
visited_classes_ if its 'yes' list was empty), tag it, bump yes_size and
CHECK yes_size <= size. -/
def SplitOn (p : Partition) (element_id : Int) : Except PErr Partition := do
  let element ← idx p.elements_ element_id
  if element.yes = p.yes_counter_ then
    return p
  let cid := element.class_id
  let this_class ← idx p.classes_ cid
  let st ←
    if 0 ≤ element.prev_element then do
      let pe ← idx p.elements_ element.prev_element
      pure (upd p.elements_ element.prev_element
              { pe with next_element := element.next_element }, this_class)
    else do
      if this_class.no_head ≠ element_id then throw PErr.check
      pure (p.elements_, { this_class with no_head := element.next_element })
  let elems := st.1
  let this_class := st.2
  let elems ←
    if 0 ≤ element.next_element then do
      let ne ← idx elems element.next_element
      pure (upd elems element.next_element
              { ne with prev_element := element.prev_element })
    else
      pure elems
  let st2 ←
    if 0 ≤ this_class.yes_head then do
      let yh ← idx elems this_class.yes_head
      pure (upd elems this_class.yes_head { yh with prev_element := element_id },
            p.visited_classes_)
    else
      pure (elems, p.visited_classes_ ++ [cid])
  let elems := st2.1
  let visited := st2.2
  let element := { element with yes := p.yes_counter_, next_element := this_class.yes_head, prev_element := -1 }
  let this_class := { this_class with yes_head := element_id, yes_size := this_class.yes_size + 1 }
  if ¬ (this_class.yes_size ≤ this_class.size) then throw PErr.check
  pure { p with elements_ := upd elems element_id element,
                classes_ := upd p.classes_ cid this_class,
                visited_classes_ := visited }

/-- The class_id-update loop at the end of SplitRefine: follow next_element
from the given list head, setting each visited element's class_id. Fuel
bounds the chase; the C++ loop would not terminate on a cyclic list. -/
def relabel (cid : Int) : Nat → List Element → Int → Except PErr (List Element)
  | 0, elems, e => if 0 ≤ e then Except.error PErr.nonterm else pure elems
  | fuel + 1, elems, e =>
    if 0 ≤ e then do
      let el ← idx elems e
      relabel cid fuel (upd elems e { el with class_id := cid }) el.next_element
    else
      pure elems

/-- Partition::SplitRefine(class_id): if the 'no' subset is empty, relabel
the 'yes' list as the 'no' list of the same class and return -1; otherwise
append one new class, give it the smaller of the two sublists (the 'yes'
sublist on a tie) as its 'no' list, keep the other sublist in the old class,
update class_id along the moved list, and return the new class's index. -/
def SplitRefine (p : Partition) (cid : Int) : Except PErr (Int × Partition) := do
  let cl ← idx p.classes_ cid
  let yes_size := cl.yes_size
  let size := cl.size
  let no_size := size - yes_size
  if no_size = 0 then do
    if ¬ (cl.no_head < 0) then throw PErr.check
    let cl := { cl with no_head := cl.yes_head, yes_head := -1, yes_size := 0 }
    pure (-1, { p with classes_ := upd p.classes_ cid cl })
  else do
    let new_class_id : Int := (p.classes_.length : Int)
    let classes := p.classes_ ++ [PClass.init]
    let st :=
      if no_size < yes_size then
        ({ PClass.init with no_head := cl.no_head, size := no_size },
         { cl with no_head := cl.yes_head, yes_head := -1,
                   size := yes_size, yes_size := 0 })
      else
        ({ PClass.init with size := yes_size, no_head := cl.yes_head },
         { cl with size := no_size, yes_size := 0, yes_head := -1 })
    let new_class := st.1
    let old_class := st.2
    let classes := upd (upd classes cid old_class) new_class_id new_class
    let elems ← relabel new_class_id p.elements_.length p.elements_ new_class.no_head
    pure (new_class_id, { p with elements_ := elems, classes_ := classes })

/-- The loop body of FinalizeSplit over the recorded visited classes: run
SplitRefine on each, and when it created a class (result different from -1)
and the queue pointer is non-null, enqueue the new class id. The queue is
modelled as Option (List Int): none is the null pointer, some q a queue
holding q. -/
def fsLoop : List Int → Partition → Option (List Int) →
    Except PErr (Partition × Option (List Int))
  | [], p, L => pure (p, L)
  | c :: rest, p, L => do
    let r ← SplitRefine p c
    fsLoop rest r.2 (if r.1 ≠ -1 then L.map (fun q => q ++ [r.1]) else L)

/-- Partition::FinalizeSplit(Queue *L): process every class in
visited_classes_, clear visited_classes_, and increment yes_counter_ (which
logically clears every element's 'yes' flag at once). -/
def FinalizeSplit (p : Partition) (L : Option (List Int)) :
    Except PErr (Partition × Option (List Int)) := do
  let r ← fsLoop p.visited_classes_ p L
  pure ({ r.1 with visited_classes_ := [], yes_counter_ := r.1.yes_counter_ + 1 }, r.2)

/-- Partition::class_id(element_id): the class currently owning the element. -/
def class_id (p : Partition) (element_id : Int) : Except PErr Int :=
  (idx p.elements_ element_id).map Element.class_id

/-- Partition::class_size(class_id). -/
def class_size (p : Partition) (cid : Int) : Except PErr Int :=
  (idx p.classes_ cid).map PClass.size

/-- Partition::num_classes(). -/
def num_classes (p : Partition) : Int := (p.classes_.length : Int)

deriving instance DecidableEq for Except

/-! Concrete scenario runs used by the explicit-scenario claims. -/

/-- The setup of the spec's Scenario A: initialize(4), add_class() twice,
add all four elements to class 0. -/
def scenarioAdds : Except PErr Partition := do
  let p := Initialize emptyPartition 4
  let p := (AddClass p).2
  let p := (AddClass p).2
  let p ← Add p 0 0
  let p ← Add p 1 0
  let p ← Add p 2 0
  Add p 3 0

/-- The spec's Scenario A: after the setup, distinguish elements 1 and 2 and
run FinalizeSplit with an empty queue. -/
def scenarioA : Except PErr (Partition × Option (List Int)) := do
  let p ← scenarioAdds
  let p ← SplitOn p 1
  let p ← SplitOn p 2
  FinalizeSplit p (some [])

/-- A run performing a duplicate Add of element 0 (already owned by class 0). -/
def duplicateAddRun : Except PErr Partition := do
  let p := Initialize emptyPartition 1
  let p := (AddClass p).2
  let p ← Add p 0 0
  Add p 0 0

/-! C5: size conservation. -/

/-- A reachable mid-setup run: initialize(2); add_class(); add(0,0). Only
one of the two allocated elements has been added to a class. -/
def c5MidRun : Except PErr Partition := do
  let p := Initialize emptyPartition 2
  let p := (AddClass p).2
  Add p 0 0

/-- initialize(1); add_class(): one allocated, unassigned element. -/
def c5P0 : Partition := ⟨[⟨0, 0, 0, 0⟩], [PClass.init], [], 1⟩

/-- c5P0 after add(0,0). -/
def c5P1 : Partition := ⟨[⟨0, 0, -1, -1⟩], [⟨1, 0, 0, -1⟩], [], 1⟩

/-- c5P1 after distinguish(0). -/
def c5P1s : Partition := ⟨[⟨0, 1, -1, -1⟩], [⟨1, 1, -1, 0⟩], [0], 1⟩

/-- c5P1 after the split branch of SplitRefine(0) (empty yes subset moved). -/
def c5P1r : Partition := ⟨[⟨0, 0, -1, -1⟩], [⟨1, 0, 0, -1⟩, ⟨0, 0, -1, -1⟩], [], 1⟩

/-- c5P1 after FinalizeSplit with a null queue. -/
def c5P1f : Partition := ⟨[⟨0, 0, -1, -1⟩], [⟨1, 0, 0, -1⟩], [], 2⟩

/-- The element record read by unchecked indexing, with the zero record for
the (never exercised under well-formedness) out-of-range case. -/
def getE (es : List Element) (i : Int) : Element := es.getD i.toNat ⟨0, 0, 0, 0⟩

/-- Fuel-bounded chase of next_element pointers starting from a list head;
this is the traversal order of PartitionIterator and of the class_id-update
loop in SplitRefine. A negative head ends the walk. -/
def chase (es : List Element) : Nat → Int → List Nat
  | 0, _ => []
  | fuel + 1, h =>
    if hh : 0 ≤ h ∧ h.toNat < es.length then
      h.toNat :: chase es fuel (es.get ⟨h.toNat, hh.2⟩).next_element
    else []

/-- The members of class c's ordinary ('no') sublist, in list order. -/
def ordinaryList (p : Partition) (c : Nat) : List Nat :=
  chase p.elements_ p.elements_.length (p.classes_.getD c PClass.init).no_head

/-- The members of class c's distinguished ('yes') sublist, in list order. -/
def distinguishedList (p : Partition) (c : Nat) : List Nat :=
  chase p.elements_ p.elements_.length (p.classes_.getD c PClass.init).yes_head

/-- The sum of class_size over all classes. -/
def sumSizes (p : Partition) : Int := (p.classes_.map PClass.size).sum

/-- The number of elements currently linked into some class's sublist. -/
def assignedCount (p : Partition) : Nat :=
  ((List.range p.classes_.length).map
    (fun c => (ordinaryList p c).length + (distinguishedList p c).length)).sum

/-- First half of the element-array surgery shared by Move and SplitOn that
unlinks an element (with record ee) from its doubly-linked list: fix the
next pointer of its predecessor, when it has one. -/
def excise1 (es : List Element) (ee : Element) : List Element :=
  if 0 ≤ ee.prev_element then
    upd es ee.prev_element { getE es ee.prev_element with next_element := ee.next_element }
  else es

/-- Full unlinking surgery: additionally fix the prev pointer of the
element's successor, when it has one. -/
def excise (es : List Element) (ee : Element) : List Element :=
  if 0 ≤ ee.next_element then
    upd (excise1 es ee) ee.next_element
      { getE (excise1 es ee) ee.next_element with prev_element := ee.prev_element }
  else excise1 es ee

/-- The element-array surgery shared by Add and SplitOn that links element e
as the new head of the list with current head hd: fix the old head's prev
pointer (when the list is nonempty) and write e's record. -/
def pushFront (es : List Element) (e : Nat) (cid ytag hd : Int) : List Element :=
  let es1 := if 0 ≤ hd then upd es hd { getE es hd with prev_element := (e : Int) } else es
  upd es1 (e : Int) ⟨cid, ytag, hd, -1⟩

/-- The doubly-linked-list representation predicate: starting at head h
whose expected prev pointer is pv, the next_element chain spells out exactly
the member list l, with consistent prev pointers. -/
inductive IsDLL (es : List Element) : Int → Int → List Nat → Prop where
  | nil {pv h : Int} (hneg : h < 0) : IsDLL es pv h []
  | cons {pv h : Int} {l : List Nat} (h0 : 0 ≤ h) (hlt : h.toNat < es.length)
      (hprev : (es.get ⟨h.toNat, hlt⟩).prev_element = pv)
      (htail : IsDLL es h (es.get ⟨h.toNat, hlt⟩).next_element l) :
      IsDLL es pv h (h.toNat :: l)

/-- Well-formedness data for a partition: for every class, its two stored
heads spell out doubly-linked member lists whose lengths match the stored
size and yes_size fields, and all these lists are disjoint and duplicate
free. This is the structural invariant the Partition operations maintain. -/
structure WFData (p : Partition) : Type where
  noL : Nat → List Nat
  yesL : Nat → List Nat
  dll_no : ∀ c (hc : c < p.classes_.length),
    IsDLL p.elements_ (-1) (p.classes_.get ⟨c, hc⟩).no_head (noL c)
  dll_yes : ∀ c (hc : c < p.classes_.length),
    IsDLL p.elements_ (-1) (p.classes_.get ⟨c, hc⟩).yes_head (yesL c)
  size_eq : ∀ c (hc : c < p.classes_.length),
    ((noL c).length : Int) + (p.classes_.get ⟨c, hc⟩).yes_size = (p.classes_.get ⟨c, hc⟩).size
  yes_size_eq : ∀ c (hc : c < p.classes_.length),
    ((yesL c).length : Int) = (p.classes_.get ⟨c, hc⟩).yes_size
  nodup_each : ∀ c, c < p.classes_.length → (noL c ++ yesL c).Nodup
  disj : ∀ c c', c < p.classes_.length → c' < p.classes_.length →
    ∀ x, x ∈ noL c ++ yesL c → x ∈ noL c' ++ yesL c' → c = c'

/-- A partition is well formed when some WFData exists for it. -/
def WF (p : Partition) : Prop := Nonempty (WFData p)

/-! Basic facts about the vector-access model idx / upd. -/

theorem idx_bounds {α : Type} {l : List α} {i : Int} {a : α}
    (h : idx l i = Except.ok a) : 0 ≤ i ∧ i.toNat < l.length := by
  unfold idx at h
  split at h
  · exact ‹0 ≤ i ∧ i.toNat < l.length›
  · exact absurd h (by simp)

theorem idx_of_valid {α : Type} (l : List α) (i : Int) (h0 : 0 ≤ i)
    (hl : i.toNat < l.length) : idx l i = Except.ok (l.get ⟨i.toNat, hl⟩) := by
  unfold idx
  rw [dif_pos ⟨h0, hl⟩]

theorem upd_length {α : Type} (l : List α) (i : Int) (a : α) :
    (upd l i a).length = l.length := by
  unfold upd
  split <;> simp

theorem idx_upd_self {α : Type} (l : List α) (i : Int) (a : α) (h0 : 0 ≤ i)
    (hl : i.toNat < l.length) : idx (upd l i a) i = Except.ok a := by
  unfold idx upd
  rw [if_pos h0]
  rw [dif_pos ⟨h0, by simpa using hl⟩]
  simp

theorem idx_upd_of_ne {α : Type} (l : List α) (i j : Int) (a : α)
    (hne : i ≠ j) : idx (upd l i a) j = idx l j := by
  unfold idx upd
  by_cases h0 : 0 ≤ i
  · rw [if_pos h0]
    by_cases hj : 0 ≤ j ∧ j.toNat < l.length
    · rw [dif_pos ⟨hj.1, by simpa using hj.2⟩, dif_pos hj]
      have : i.toNat ≠ j.toNat := by
        intro hEq
        exact hne (by omega)
      simp [List.getElem_set, this]
    · rw [dif_neg (by simpa using hj), dif_neg hj]
  · rw [if_neg h0]

theorem idx_append_self {α : Type} (l : List α) (a : α) :
    idx (l ++ [a]) (l.length : Int) = Except.ok a := by
  unfold idx
  rw [dif_pos ⟨by omega, by simp⟩]
  simp

theorem idx_append_of_lt {α : Type} (l : List α) (l' : List α) (i : Int)
    (h0 : 0 ≤ i) (hl : i.toNat < l.length) : idx (l ++ l') i = idx l i := by
  unfold idx
  rw [dif_pos ⟨h0, by simp; omega⟩, dif_pos ⟨h0, hl⟩]
  simp [List.getElem_append, hl]


theorem ok_bind {ε α β : Type} (a : α) (f : α → Except ε β) :
    (Except.ok a >>= f : Except ε β) = f a := rfl

theorem error_bind {ε α β : Type} (e : ε) (f : α → Except ε β) :
    (Except.error e >>= f : Except ε β) = Except.error e := rfl

/-! Claim theorems. -/

/-- C1: whenever SplitRefine actually splits a class (its ordinary subset is
nonempty), the newly created class (whose index is the previous class count)
receives the smaller of the two subsets: its size is at most the size kept
by the original class, the two sizes add up to the original size, and on a
tie (ordinary count equal to distinguished count) the distinguished subset
is the one moved, i.e. the new class's ordinary list head is the old 'yes'
list head. -/
theorem C1_smaller_subset (p p' : Partition) (c nc : Int) (cl : PClass)
    (hcl : idx p.classes_ c = Except.ok cl)
    (hsplit : cl.size - cl.yes_size ≠ 0)
    (h : SplitRefine p c = Except.ok (nc, p')) :
    nc = num_classes p ∧
    ∃ ncl ocl, idx p'.classes_ nc = Except.ok ncl ∧ idx p'.classes_ c = Except.ok ocl ∧
      ncl.size ≤ ocl.size ∧ ncl.size + ocl.size = cl.size ∧
      (cl.size - cl.yes_size = cl.yes_size → ncl.no_head = cl.yes_head ∧ ncl.size = cl.yes_size) := by
  have hb := idx_bounds hcl
  have hlen : (0 : Int) ≤ (p.classes_.length : Int) := by omega
  have hcne : (p.classes_.length : Int) ≠ c := by omega
  have hclen : c.toNat < (p.classes_ ++ [PClass.init]).length := by
    simp only [List.length_append, List.length_cons, List.length_nil]
    omega
  simp only [SplitRefine, hcl, ok_bind] at h
  rw [if_neg hsplit] at h
  by_cases ht : cl.size - cl.yes_size < cl.yes_size
  · rw [if_pos ht] at h
    rcases hrel : relabel (p.classes_.length : Int) p.elements_.length p.elements_ cl.no_head with e | elems
    · rw [hrel] at h
      exact absurd h (by simp [error_bind])
    · rw [hrel] at h
      simp only [ok_bind, pure, Except.pure, Except.ok.injEq, Prod.mk.injEq] at h
      obtain ⟨hnc, hp'⟩ := h
      subst hnc
      subst hp'
      refine ⟨rfl, ?_⟩
      refine ⟨⟨cl.size - cl.yes_size, 0, cl.no_head, -1⟩, ⟨cl.yes_size, 0, cl.yes_head, -1⟩, ?_, ?_⟩
      · exact idx_upd_self _ _ _ hlen (by simp only [upd_length, List.length_append, List.length_cons, List.length_nil, Int.toNat_natCast]; omega)
      · refine ⟨?_, ?_, ?_, ?_⟩
        · rw [idx_upd_of_ne _ _ _ _ hcne]
          exact idx_upd_self _ _ _ hb.1 hclen
        · show cl.size - cl.yes_size ≤ cl.yes_size
          omega
        · show cl.size - cl.yes_size + cl.yes_size = cl.size
          omega
        · intro htie
          exact absurd htie (by omega)
  · rw [if_neg ht] at h
    rcases hrel : relabel (p.classes_.length : Int) p.elements_.length p.elements_ cl.yes_head with e | elems
    · rw [hrel] at h
      exact absurd h (by simp [error_bind])
    · rw [hrel] at h
      simp only [ok_bind, pure, Except.pure, Except.ok.injEq, Prod.mk.injEq] at h
      obtain ⟨hnc, hp'⟩ := h
      subst hnc
      subst hp'
      refine ⟨rfl, ?_⟩
      refine ⟨⟨cl.yes_size, 0, cl.yes_head, -1⟩, ⟨cl.size - cl.yes_size, 0, cl.no_head, -1⟩, ?_, ?_⟩
      · exact idx_upd_self _ _ _ hlen (by simp only [upd_length, List.length_append, List.length_cons, List.length_nil, Int.toNat_natCast]; omega)
      · refine ⟨?_, ?_, ?_, ?_⟩
        · rw [idx_upd_of_ne _ _ _ _ hcne]
          exact idx_upd_self _ _ _ hb.1 hclen
        · show cl.yes_size ≤ cl.size - cl.yes_size
          omega
        · show cl.yes_size + (cl.size - cl.yes_size) = cl.size
          omega
        · intro htie
          exact ⟨rfl, rfl⟩

/-- C1 witness: a concrete split of a size-4 class with two distinguished
elements (a tie), where the created class 1 has size 2 and receives the
'yes' sublist (head 2). -/
theorem C1_smaller_subset_witness :
    idx (Partition.mk [⟨0,0,-1,3⟩, ⟨0,1,-1,2⟩, ⟨0,1,1,-1⟩, ⟨0,0,0,-1⟩] [⟨4,2,3,2⟩] [0] 1).classes_ 0 = Except.ok ⟨4,2,3,2⟩ ∧
    (4 : Int) - 2 ≠ 0 ∧
    (1 = num_classes (Partition.mk [⟨0,0,-1,3⟩, ⟨0,1,-1,2⟩, ⟨0,1,1,-1⟩, ⟨0,0,0,-1⟩] [⟨4,2,3,2⟩] [0] 1) ∧
     ∃ ncl ocl,
       idx (Partition.mk [⟨0,0,-1,3⟩, ⟨1,1,-1,2⟩, ⟨1,1,1,-1⟩, ⟨0,0,0,-1⟩] [⟨2,0,3,-1⟩, ⟨2,0,2,-1⟩] [0] 1).classes_ 1 = Except.ok ncl ∧
       idx (Partition.mk [⟨0,0,-1,3⟩, ⟨1,1,-1,2⟩, ⟨1,1,1,-1⟩, ⟨0,0,0,-1⟩] [⟨2,0,3,-1⟩, ⟨2,0,2,-1⟩] [0] 1).classes_ 0 = Except.ok ocl ∧
       ncl.size ≤ ocl.size ∧ ncl.size + ocl.size = 4 ∧
       ((4 : Int) - 2 = 2 → ncl.no_head = 2 ∧ ncl.size = 2)) :=
  ⟨by decide, by decide,
   C1_smaller_subset
     (Partition.mk [⟨0,0,-1,3⟩, ⟨0,1,-1,2⟩, ⟨0,1,1,-1⟩, ⟨0,0,0,-1⟩] [⟨4,2,3,2⟩] [0] 1)
     (Partition.mk [⟨0,0,-1,3⟩, ⟨1,1,-1,2⟩, ⟨1,1,1,-1⟩, ⟨0,0,0,-1⟩] [⟨2,0,3,-1⟩, ⟨2,0,2,-1⟩] [0] 1)
     0 1 ⟨4,2,3,2⟩ (by decide) (by decide) (by decide)⟩

/-- C9: Initialize(n) resizes element storage to n, clears the class
collection, and resets the epoch counter to its base value 1, but leaves the
visited-classes list untouched, so stale visited entries survive
re-initialization. -/
theorem C9_initialize_partial_reset (p : Partition) (n : Nat) :
    (Initialize p n).elements_.length = n ∧
    (Initialize p n).classes_ = [] ∧
    (Initialize p n).yes_counter_ = 1 ∧
    (Initialize p n).visited_classes_ = p.visited_classes_ := by
  refine ⟨?_, rfl, rfl, rfl⟩
  simp only [Initialize, List.length_append, List.length_take, List.length_replicate]
  omega

/-- C6: AddClass appends exactly one empty (default-constructed) class,
returns the index equal to the class count before the call, increments
num_classes by one, and changes nothing else. -/
theorem C6_add_class (p : Partition) :
    (AddClass p).1 = num_classes p ∧
    (AddClass p).2.classes_ = p.classes_ ++ [PClass.init] ∧
    num_classes (AddClass p).2 = num_classes p + 1 ∧
    idx (AddClass p).2.classes_ (AddClass p).1 = Except.ok PClass.init ∧
    class_size (AddClass p).2 (AddClass p).1 = Except.ok 0 ∧
    (AddClass p).2.elements_ = p.elements_ ∧
    (AddClass p).2.visited_classes_ = p.visited_classes_ ∧
    (AddClass p).2.yes_counter_ = p.yes_counter_ := by
  refine ⟨rfl, rfl, ?_, ?_, ?_, rfl, rfl, rfl⟩
  · simp [AddClass, num_classes]
  · exact idx_append_self p.classes_ PClass.init
  · simp only [class_size, AddClass]
    rw [idx_append_self p.classes_ PClass.init]
    rfl

/-- C2 counterexample: in Scenario A as literally stated (initialize(4),
add_class() twice, four Adds into class 0, distinguish 1 and 2,
FinalizeSplit), the queue does not end up containing [1] and class 1 does
not have size 2: two AddClass calls mean classes 0 and 1 already exist, so
the split creates class 2. -/
theorem C2_counterexample :
    (scenarioA.map (fun r => r.2)) ≠ Except.ok (some [1]) ∧
    (scenarioA.bind (fun r => class_size r.1 1)) ≠ Except.ok 2 := by
  constructor
  · decide
  · decide

/-- C2 amended: Scenario A creates class 2 (not 1) with size 2 containing
exactly elements 1 and 2, shrinks class 0 to size 2 containing exactly
elements 0 and 3, and leaves the queue containing exactly [2]; the setup
itself gives class_size(0) == 4. -/
theorem C2_scenarioA :
    (scenarioAdds.bind (fun p => class_size p 0)) = Except.ok 4 ∧
    (scenarioA.map (fun r => r.2)) = Except.ok (some [2]) ∧
    (scenarioA.map (fun r => num_classes r.1)) = Except.ok 3 ∧
    (scenarioA.bind (fun r => class_size r.1 2)) = Except.ok 2 ∧
    (scenarioA.bind (fun r => class_size r.1 0)) = Except.ok 2 ∧
    (scenarioA.bind (fun r => class_id r.1 1)) = Except.ok 2 ∧
    (scenarioA.bind (fun r => class_id r.1 2)) = Except.ok 2 ∧
    (scenarioA.bind (fun r => class_id r.1 0)) = Except.ok 0 ∧
    (scenarioA.bind (fun r => class_id r.1 3)) = Except.ok 0 := by
  refine ⟨?_, ?_, ?_, ?_, ?_, ?_, ?_, ?_, ?_⟩ <;> decide

theorem C3_no_split_all_distinguished (p : Partition) (c : Int) (cl : PClass) (q : List Int)
    (hvis : p.visited_classes_ = [c])
    (hcl : idx p.classes_ c = Except.ok cl)
    (hall : cl.size = cl.yes_size)
    (hnh : cl.no_head < 0) :
    FinalizeSplit p (some q) =
      Except.ok ({ p with
          classes_ := upd p.classes_ c { cl with no_head := cl.yes_head, yes_head := -1, yes_size := 0 },
          visited_classes_ := [], yes_counter_ := p.yes_counter_ + 1 }, some q) ∧
    num_classes { p with
          classes_ := upd p.classes_ c { cl with no_head := cl.yes_head, yes_head := -1, yes_size := 0 },
          visited_classes_ := [], yes_counter_ := p.yes_counter_ + 1 } = num_classes p := by
  constructor
  · simp only [FinalizeSplit, hvis, fsLoop, SplitRefine, hcl, ok_bind]
    rw [if_pos (by omega : cl.size - cl.yes_size = 0)]
    rw [if_neg (not_not_intro hnh)]
    simp only [ok_bind, pure, Except.pure]
    rfl
  · simp only [num_classes, upd_length]

theorem pure_bind {e a b : Type} (x : a) (f : a -> Except e b) :
    (pure x >>= f : Except e b) = f x := rfl

theorem throw_eq {e a : Type} (er : e) : (throw er : Except e a) = Except.error er := rfl

theorem splitOn_ok_state (p p' : Partition) (e : Int)
    (h : SplitOn p e = Except.ok p') :
    p'.yes_counter_ = p.yes_counter_ ∧
    ∃ el', idx p'.elements_ e = Except.ok el' ∧ el'.yes = p.yes_counter_ := by
  rcases hel : idx p.elements_ e with err | el
  · rw [SplitOn, hel, error_bind] at h
    exact absurd h (by simp)
  · have hbe := idx_bounds hel
    rw [SplitOn, hel, ok_bind] at h
    by_cases hy : el.yes = p.yes_counter_
    · rw [if_pos hy] at h
      have hpp : p = p' := by simpa [pure, Except.pure] using h
      subst hpp
      exact ⟨rfl, el, hel, hy⟩
    · rw [if_neg hy] at h
      simp only [pure_bind, ok_bind, error_bind] at h
      rcases hcl : idx p.classes_ el.class_id with err | cl <;> rw [hcl] at h
      · exact absurd h (by simp [error_bind])
      · simp only [ok_bind] at h
        by_cases hprev : 0 ≤ el.prev_element
        · rw [if_pos hprev] at h
          rcases hpe : idx p.elements_ el.prev_element with err | pe <;> rw [hpe] at h
          · exact absurd h (by simp [error_bind])
          · simp only [ok_bind] at h
            by_cases hnext : 0 ≤ el.next_element
            · rw [if_pos hnext] at h
              rcases hne : idx _ el.next_element with err | ne <;> rw [hne] at h
              · exact absurd h (by simp [error_bind])
              · simp only [ok_bind] at h
                by_cases hyh : 0 ≤ cl.yes_head
                · rw [if_pos hyh] at h
                  rcases hyhv : idx _ cl.yes_head with err | yh <;> rw [hyhv] at h
                  · exact absurd h (by simp [error_bind])
                  · simp only [ok_bind] at h
                    by_cases hchk : ¬ cl.yes_size + 1 ≤ cl.size
                    · rw [if_pos hchk] at h
                      exact absurd h (by simp [throw_eq, error_bind])
                    · rw [if_neg hchk] at h
                      simp only [pure, Except.pure, Except.ok.injEq] at h
                      subst h
                      exact ⟨rfl, _, idx_upd_self _ _ _ hbe.1 (by first | exact hbe.2 | (simp only [upd_length]; exact hbe.2)), rfl⟩
                · rw [if_neg hyh] at h
                  by_cases hchk : ¬ cl.yes_size + 1 ≤ cl.size
                  · rw [if_pos hchk] at h
                    exact absurd h (by simp [throw_eq, error_bind])
                  · rw [if_neg hchk] at h
                    simp only [pure, Except.pure, Except.ok.injEq] at h
                    subst h
                    exact ⟨rfl, _, idx_upd_self _ _ _ hbe.1 (by first | exact hbe.2 | (simp only [upd_length]; exact hbe.2)), rfl⟩
            · rw [if_neg hnext] at h
              by_cases hyh : 0 ≤ cl.yes_head
              · rw [if_pos hyh] at h
                rcases hyhv : idx _ cl.yes_head with err | yh <;> rw [hyhv] at h
                · exact absurd h (by simp [error_bind])
                · simp only [ok_bind] at h
                  by_cases hchk : ¬ cl.yes_size + 1 ≤ cl.size
                  · rw [if_pos hchk] at h
                    exact absurd h (by simp [throw_eq, error_bind])
                  · rw [if_neg hchk] at h
                    simp only [pure, Except.pure, Except.ok.injEq] at h
                    subst h
                    exact ⟨rfl, _, idx_upd_self _ _ _ hbe.1 (by first | exact hbe.2 | (simp only [upd_length]; exact hbe.2)), rfl⟩
              · rw [if_neg hyh] at h
                by_cases hchk : ¬ cl.yes_size + 1 ≤ cl.size
                · rw [if_pos hchk] at h
                  exact absurd h (by simp [throw_eq, error_bind])
                · rw [if_neg hchk] at h
                  simp only [pure, Except.pure, Except.ok.injEq] at h
                  subst h
                  exact ⟨rfl, _, idx_upd_self _ _ _ hbe.1 (by first | exact hbe.2 | (simp only [upd_length]; exact hbe.2)), rfl⟩
        · rw [if_neg hprev] at h
          by_cases hnh : cl.no_head ≠ e
          · rw [if_pos hnh] at h
            exact absurd h (by simp [throw_eq, error_bind])
          · rw [if_neg hnh] at h
            by_cases hnext : 0 ≤ el.next_element
            · rw [if_pos hnext] at h
              rcases hne : idx _ el.next_element with err | ne <;> rw [hne] at h
              · exact absurd h (by simp [error_bind])
              · simp only [ok_bind] at h
                by_cases hyh : 0 ≤ cl.yes_head
                · rw [if_pos hyh] at h
                  rcases hyhv : idx _ cl.yes_head with err | yh <;> rw [hyhv] at h
                  · exact absurd h (by simp [error_bind])
                  · simp only [ok_bind] at h
                    by_cases hchk : ¬ cl.yes_size + 1 ≤ cl.size
                    · rw [if_pos hchk] at h
                      exact absurd h (by simp [throw_eq, error_bind])
                    · rw [if_neg hchk] at h
                      simp only [pure, Except.pure, Except.ok.injEq] at h
                      subst h
                      exact ⟨rfl, _, idx_upd_self _ _ _ hbe.1 (by first | exact hbe.2 | (simp only [upd_length]; exact hbe.2)), rfl⟩
                · rw [if_neg hyh] at h
                  by_cases hchk : ¬ cl.yes_size + 1 ≤ cl.size
                  · rw [if_pos hchk] at h
                    exact absurd h (by simp [throw_eq, error_bind])
                  · rw [if_neg hchk] at h
                    simp only [pure, Except.pure, Except.ok.injEq] at h
                    subst h
                    exact ⟨rfl, _, idx_upd_self _ _ _ hbe.1 (by first | exact hbe.2 | (simp only [upd_length]; exact hbe.2)), rfl⟩
            · rw [if_neg hnext] at h
              by_cases hyh : 0 ≤ cl.yes_head
              · rw [if_pos hyh] at h
                rcases hyhv : idx _ cl.yes_head with err | yh <;> rw [hyhv] at h
                · exact absurd h (by simp [error_bind])
                · simp only [ok_bind] at h
                  by_cases hchk : ¬ cl.yes_size + 1 ≤ cl.size
                  · rw [if_pos hchk] at h
                    exact absurd h (by simp [throw_eq, error_bind])
                  · rw [if_neg hchk] at h
                    simp only [pure, Except.pure, Except.ok.injEq] at h
                    subst h
                    exact ⟨rfl, _, idx_upd_self _ _ _ hbe.1 (by first | exact hbe.2 | (simp only [upd_length]; exact hbe.2)), rfl⟩
              · rw [if_neg hyh] at h
                by_cases hchk : ¬ cl.yes_size + 1 ≤ cl.size
                · rw [if_pos hchk] at h
                  exact absurd h (by simp [throw_eq, error_bind])
                · rw [if_neg hchk] at h
                  simp only [pure, Except.pure, Except.ok.injEq] at h
                  subst h
                  exact ⟨rfl, _, idx_upd_self _ _ _ hbe.1 (by first | exact hbe.2 | (simp only [upd_length]; exact hbe.2)), rfl⟩

theorem C4_distinguish_idempotent (p p' : Partition) (e : Int)
    (h : SplitOn p e = Except.ok p') :
    SplitOn p' e = Except.ok p' := by
  obtain ⟨hyc, el', hel', hyes⟩ := splitOn_ok_state p p' e h
  rw [SplitOn, hel', ok_bind, if_pos (by rw [hyc]; exact hyes)]
  rfl

theorem idx_oob {α : Type} (l : List α) (i : Int)
    (h : ¬ (0 ≤ i ∧ i.toNat < l.length)) : idx l i = Except.error PErr.oob := by
  unfold idx
  rw [dif_neg h]

theorem C8_unchecked_bounds (p : Partition) (i : Int)
    (helem : ¬ (0 ≤ i ∧ i.toNat < p.elements_.length))
    (hcls : ¬ (0 ≤ i ∧ i.toNat < p.classes_.length)) :
    class_id p i = Except.error PErr.oob ∧
    class_size p i = Except.error PErr.oob ∧
    (∀ c, Add p i c = Except.error PErr.oob) ∧
    (∀ c, Move p i c = Except.error PErr.oob) ∧
    SplitOn p i = Except.error PErr.oob ∧
    SplitRefine p i = Except.error PErr.oob := by
  have he := idx_oob p.elements_ i helem
  have hc := idx_oob p.classes_ i hcls
  refine ⟨?_, ?_, ?_, ?_, ?_, ?_⟩
  · rw [class_id, he]; rfl
  · rw [class_size, hc]; rfl
  · intro c; rw [Add, he, error_bind]
  · intro c; rw [Move, he, error_bind]
  · rw [SplitOn, he, error_bind]
  · rw [SplitRefine, hc, error_bind]

theorem C7_fail_fast (p : Partition) (e c : Int) (el : Element) (ocl : PClass)
    (hel : idx p.elements_ e = Except.ok el)
    (hyes : el.yes ≠ p.yes_counter_)
    (hocl : idx p.classes_ el.class_id = Except.ok ocl) :
    (ocl.yes_size ≠ 0 → Move p e c = Except.error PErr.check) ∧
    (ocl.size - 1 < 0 → Move p e c = Except.error PErr.check) ∧
    (∀ cl', idx p.classes_ c = Except.ok cl' →
       (0 ≤ cl'.no_head → cl'.no_head.toNat < p.elements_.length) →
       ∃ p', Add p e c = Except.ok p') := by
  refine ⟨?_, ?_, ?_⟩
  · intro hys
    rw [Move, hel, ok_bind, if_neg hyes]
    simp only [pure_bind, hocl, ok_bind]
    rw [if_pos (by intro hcon; exact hys hcon.2)]
    rfl
  · intro hsz
    rw [Move, hel, ok_bind, if_neg hyes]
    simp only [pure_bind, hocl, ok_bind]
    rw [if_pos (by intro hcon; omega)]
    rfl
  · intro cl' hcl' hno
    rw [Add, hel, ok_bind, hcl', ok_bind]
    by_cases hnh : 0 ≤ cl'.no_head
    · rw [if_pos hnh]
      rw [idx_of_valid p.elements_ cl'.no_head hnh (hno hnh), ok_bind, pure_bind]
      exact ⟨_, rfl⟩
    · rw [if_neg hnh]
      simp only [pure_bind]
      exact ⟨_, rfl⟩

theorem splitRefine_growth (p p' : Partition) (c nc : Int)
    (h : SplitRefine p c = Except.ok (nc, p')) :
    (nc = -1 ∧ p'.classes_.length = p.classes_.length) ∨
    (nc ≠ -1 ∧ p'.classes_.length = p.classes_.length + 1) := by
  rcases hcl : idx p.classes_ c with err | cl
  · rw [SplitRefine, hcl, error_bind] at h
    exact absurd h (by simp)
  · simp only [SplitRefine, hcl, ok_bind] at h
    by_cases hz : cl.size - cl.yes_size = 0
    · rw [if_pos hz] at h
      by_cases hnh : ¬ cl.no_head < 0
      · rw [if_pos hnh] at h
        exact absurd h (by simp [throw_eq, error_bind])
      · rw [if_neg hnh] at h
        simp only [pure_bind] at h
        simp only [pure, Except.pure, Except.ok.injEq, Prod.mk.injEq] at h
        obtain ⟨h1, h2⟩ := h
        subst h1
        subst h2
        exact Or.inl ⟨rfl, by simp [upd_length]⟩
    · rw [if_neg hz] at h
      by_cases hlt : cl.size - cl.yes_size < cl.yes_size
      · rw [if_pos hlt] at h
        rcases hrel : relabel (p.classes_.length : Int) p.elements_.length p.elements_ cl.no_head with err | elems <;> rw [hrel] at h
        · exact absurd h (by simp [error_bind])
        · simp only [ok_bind, pure, Except.pure, Except.ok.injEq, Prod.mk.injEq] at h
          obtain ⟨h1, h2⟩ := h
          subst h1
          subst h2
          refine Or.inr ⟨by omega, ?_⟩
          simp [upd_length, List.length_append]
      · rw [if_neg hlt] at h
        rcases hrel : relabel (p.classes_.length : Int) p.elements_.length p.elements_ cl.yes_head with err | elems <;> rw [hrel] at h
        · exact absurd h (by simp [error_bind])
        · simp only [ok_bind, pure, Except.pure, Except.ok.injEq, Prod.mk.injEq] at h
          obtain ⟨h1, h2⟩ := h
          subst h1
          subst h2
          refine Or.inr ⟨by omega, ?_⟩
          simp [upd_length, List.length_append]

theorem fsLoop_state_indep (cs : List Int) (p : Partition) (L1 L2 : Option (List Int)) :
    (fsLoop cs p L1).map Prod.fst = (fsLoop cs p L2).map Prod.fst := by
  induction cs generalizing p L1 L2 with
  | nil => rfl
  | cons c rest ih =>
    simp only [fsLoop]
    rcases hsr : SplitRefine p c with err | r
    · rw [error_bind, error_bind]
    · rw [ok_bind, ok_bind]
      exact ih r.2 _ _

theorem fsLoop_none_queue (cs : List Int) (p p' : Partition) (L' : Option (List Int))
    (h : fsLoop cs p none = Except.ok (p', L')) : L' = none := by
  induction cs generalizing p with
  | nil =>
    simp only [fsLoop, pure, Except.pure, Except.ok.injEq, Prod.mk.injEq] at h
    exact h.2.symm
  | cons c rest ih =>
    simp only [fsLoop] at h
    rcases hsr : SplitRefine p c with err | r <;> rw [hsr] at h
    · exact absurd h (by simp [error_bind])
    · rw [ok_bind] at h
      have : (if r.1 ≠ -1 then Option.map (fun q => q ++ [r.1]) none else none) = (none : Option (List Int)) := by
        split <;> rfl
      rw [this] at h
      exact ih r.2 h

theorem fsLoop_queue_growth (cs : List Int) (p p' : Partition) (q q' : List Int)
    (h : fsLoop cs p (some q) = Except.ok (p', some q')) :
    ∃ added, q' = q ++ added ∧ p'.classes_.length = p.classes_.length + added.length := by
  induction cs generalizing p q with
  | nil =>
    simp only [fsLoop, pure, Except.pure, Except.ok.injEq, Prod.mk.injEq, Option.some.injEq] at h
    exact ⟨[], by simp [h.2.symm], by simp [h.1]⟩
  | cons c rest ih =>
    simp only [fsLoop] at h
    rcases hsr : SplitRefine p c with err | r <;> rw [hsr] at h
    · exact absurd h (by simp [error_bind])
    · rw [ok_bind] at h
      rcases splitRefine_growth p r.2 c r.1 (by rw [hsr]) with ⟨hm, hlen⟩ | ⟨hm, hlen⟩
      · rw [if_neg (by simp [hm])] at h
        obtain ⟨added, ha, hl⟩ := ih r.2 q h
        exact ⟨added, ha, by omega⟩
      · rw [if_pos hm] at h
        (try simp only [Option.map_some, Option.map_some'] at h)
        obtain ⟨added, ha, hl⟩ := ih r.2 (q ++ [r.1]) h
        refine ⟨r.1 :: added, by simpa using ha, ?_⟩
        simp only [List.length_append, List.length_cons] at hl ⊢
        omega


theorem map_fst_lift {E A B C : Type} (g : A → C) (x y : Except E (A × B))
    (hxy : x.map Prod.fst = y.map Prod.fst) :
    x.map (fun r => g r.1) = y.map (fun r => g r.1) := by
  cases x with
  | error e1 =>
    cases y with
    | error e2 =>
      simp only [Except.map] at hxy ⊢
      simpa using hxy
    | ok r2 => exact absurd hxy (by simp [Except.map])
  | ok r1 =>
    cases y with
    | error e2 => exact absurd hxy (by simp [Except.map])
    | ok r2 =>
      simp only [Except.map, Except.ok.injEq] at hxy ⊢
      rw [hxy]

theorem finalize_map_fst (p : Partition) (L : Option (List Int)) :
    (FinalizeSplit p L).map Prod.fst =
      (fsLoop p.visited_classes_ p L).map
        (fun r => { r.1 with visited_classes_ := [], yes_counter_ := r.1.yes_counter_ + 1 }) := by
  rw [FinalizeSplit]
  cases fsLoop p.visited_classes_ p L with
  | error e => rfl
  | ok r => rfl

/-- C10: FinalizeSplit with a null queue pointer (none) performs exactly the
same splits as with a non-null queue: the resulting partition states agree
(including the error case), nothing is ever enqueued in the null case, and
in the non-null case the enqueued ids extend the queue by exactly one entry
per class created. -/
theorem C10_null_queue (p : Partition) (q : List Int) :
    (FinalizeSplit p none).map Prod.fst = (FinalizeSplit p (some q)).map Prod.fst ∧
    (∀ p' L', FinalizeSplit p none = Except.ok (p', L') → L' = none) ∧
    (∀ p' q', FinalizeSplit p (some q) = Except.ok (p', some q') →
      ∃ added, q' = q ++ added ∧ p'.classes_.length = p.classes_.length + added.length) := by
  refine ⟨?_, ?_, ?_⟩
  · rw [finalize_map_fst, finalize_map_fst]
    exact map_fst_lift (fun a => { a with visited_classes_ := ([] : List Int), yes_counter_ := a.yes_counter_ + 1 }) _ _ (fsLoop_state_indep p.visited_classes_ p none (some q))
  · intro p' L' h
    rw [FinalizeSplit] at h
    rcases h1 : fsLoop p.visited_classes_ p none with e1 | r1 <;> rw [h1] at h
    · exact absurd h (by simp [error_bind])
    · simp only [ok_bind, pure, Except.pure, Except.ok.injEq, Prod.mk.injEq] at h
      rw [← h.2]
      exact fsLoop_none_queue _ _ _ _ h1
  · intro p' q' h
    rw [FinalizeSplit] at h
    rcases h1 : fsLoop p.visited_classes_ p (some q) with e1 | r1 <;> rw [h1] at h
    · exact absurd h (by simp [error_bind])
    · rcases r1 with ⟨p1, L1⟩
      simp only [ok_bind, pure, Except.pure, Except.ok.injEq, Prod.mk.injEq] at h
      obtain ⟨hp, hL⟩ := h
      subst hL
      obtain ⟨added, ha, hlen⟩ := fsLoop_queue_growth p.visited_classes_ p p1 q q' h1
      refine ⟨added, ha, ?_⟩
      rw [← hp]
      exact hlen

/-- C10 witness: a concrete partition with one visited class that splits;
with queue [5] the run enqueues exactly the one created class, and the state
agrees with the null-queue run. -/
theorem C10_null_queue_witness :
    (FinalizeSplit (Partition.mk [⟨0,0,-1,3⟩, ⟨0,1,-1,2⟩, ⟨0,1,1,-1⟩, ⟨0,0,0,-1⟩] [⟨4,2,3,2⟩] [0] 1) none).map Prod.fst =
      (FinalizeSplit (Partition.mk [⟨0,0,-1,3⟩, ⟨0,1,-1,2⟩, ⟨0,1,1,-1⟩, ⟨0,0,0,-1⟩] [⟨4,2,3,2⟩] [0] 1) (some [5])).map Prod.fst ∧
    ∃ added : List Int, ([5, 1] : List Int) = [5] ++ added ∧
      (Partition.mk [⟨0,0,-1,3⟩, ⟨1,1,-1,2⟩, ⟨1,1,1,-1⟩, ⟨0,0,0,-1⟩] [⟨2,0,3,-1⟩, ⟨2,0,2,-1⟩] [] 2).classes_.length =
        (Partition.mk [⟨0,0,-1,3⟩, ⟨0,1,-1,2⟩, ⟨0,1,1,-1⟩, ⟨0,0,0,-1⟩] [⟨4,2,3,2⟩] [0] 1).classes_.length + added.length :=
  ⟨(C10_null_queue (Partition.mk [⟨0,0,-1,3⟩, ⟨0,1,-1,2⟩, ⟨0,1,1,-1⟩, ⟨0,0,0,-1⟩] [⟨4,2,3,2⟩] [0] 1) [5]).1,
   (C10_null_queue (Partition.mk [⟨0,0,-1,3⟩, ⟨0,1,-1,2⟩, ⟨0,1,1,-1⟩, ⟨0,0,0,-1⟩] [⟨4,2,3,2⟩] [0] 1) [5]).2.2
     (Partition.mk [⟨0,0,-1,3⟩, ⟨1,1,-1,2⟩, ⟨1,1,1,-1⟩, ⟨0,0,0,-1⟩] [⟨2,0,3,-1⟩, ⟨2,0,2,-1⟩] [] 2) [5, 1] (by decide)⟩

/-- C4 witness: distinguishing element 0 of a two-element class once and
then a second time leaves the state fixed. -/
theorem C4_distinguish_idempotent_witness :
    SplitOn (Partition.mk [⟨0,0,-1,1⟩, ⟨0,0,0,-1⟩] [⟨2,0,1,-1⟩] [] 1) 0 =
      Except.ok (Partition.mk [⟨0,1,-1,-1⟩, ⟨0,0,-1,-1⟩] [⟨2,1,1,0⟩] [0] 1) ∧
    SplitOn (Partition.mk [⟨0,1,-1,-1⟩, ⟨0,0,-1,-1⟩] [⟨2,1,1,0⟩] [0] 1) 0 =
      Except.ok (Partition.mk [⟨0,1,-1,-1⟩, ⟨0,0,-1,-1⟩] [⟨2,1,1,0⟩] [0] 1) :=
  ⟨by decide,
   C4_distinguish_idempotent (Partition.mk [⟨0,0,-1,1⟩, ⟨0,0,0,-1⟩] [⟨2,0,1,-1⟩] [] 1)
     (Partition.mk [⟨0,1,-1,-1⟩, ⟨0,0,-1,-1⟩] [⟨2,1,1,0⟩] [0] 1) 0 (by decide)⟩

/-- C3 witness: a two-element class whose members are both distinguished is
relabelled in place by FinalizeSplit: no new class, size kept, queue [7]
untouched, epoch advanced. -/
theorem C3_no_split_witness :
    FinalizeSplit (Partition.mk [⟨0,1,1,-1⟩, ⟨0,1,-1,0⟩] [⟨2,2,-1,0⟩] [0] 1) (some [7]) =
      Except.ok (Partition.mk [⟨0,1,1,-1⟩, ⟨0,1,-1,0⟩] [⟨2,0,0,-1⟩] [] 2, some [7]) :=
  (C3_no_split_all_distinguished (Partition.mk [⟨0,1,1,-1⟩, ⟨0,1,-1,0⟩] [⟨2,2,-1,0⟩] [0] 1)
    0 ⟨2,2,-1,0⟩ [7] rfl (by decide) (by decide) (by decide)).1

/-- C7 counterexample: the duplicate Add of an already-owned element does
not abort: the run succeeds, leaving class 0 with recorded size 2 although
only one element exists — the violation is silently tolerated. -/
theorem C7_counterexample :
    duplicateAddRun ≠ Except.error PErr.check ∧
    (duplicateAddRun.bind (fun p => class_size p 0)) = Except.ok 2 ∧
    (duplicateAddRun.map (fun p => p.elements_.length)) = Except.ok 1 :=
  ⟨by decide, by decide, by decide⟩

/-- C7 witness: on a concrete one-element partition whose class has a
nonempty distinguished subset, Move aborts via CHECK, while Add of the
already-owned element succeeds. -/
theorem C7_fail_fast_witness :
    Move (Partition.mk [⟨0,0,-1,-1⟩] [⟨1,1,-1,0⟩] [0] 1) 0 0 = Except.error PErr.check ∧
    ∃ p', Add (Partition.mk [⟨0,0,-1,-1⟩] [⟨1,1,-1,0⟩] [0] 1) 0 0 = Except.ok p' :=
  ⟨(C7_fail_fast (Partition.mk [⟨0,0,-1,-1⟩] [⟨1,1,-1,0⟩] [0] 1) 0 0 ⟨0,0,-1,-1⟩ ⟨1,1,-1,0⟩
      (by decide) (by decide) (by decide)).1 (by decide),
   (C7_fail_fast (Partition.mk [⟨0,0,-1,-1⟩] [⟨1,1,-1,0⟩] [0] 1) 0 0 ⟨0,0,-1,-1⟩ ⟨1,1,-1,0⟩
      (by decide) (by decide) (by decide)).2.2 ⟨1,1,-1,0⟩ (by decide) (by decide)⟩

/-- C8 counterexample: accessing class 3 of an empty partition produces the
unchecked out-of-bounds access marker (C++ undefined behavior), not the
deliberate CHECK abort — the code performs no bounds check. -/
theorem C8_counterexample :
    class_size emptyPartition 3 = Except.error PErr.oob ∧
    PErr.oob ≠ PErr.check :=
  ⟨by decide, by decide⟩

/-- C8 witness: every operation applied to out-of-range index 5 of the
empty partition reaches the unchecked access. -/
theorem C8_unchecked_bounds_witness :
    class_id emptyPartition 5 = Except.error PErr.oob ∧
    class_size emptyPartition 5 = Except.error PErr.oob ∧
    Add emptyPartition 5 0 = Except.error PErr.oob ∧
    Move emptyPartition 5 0 = Except.error PErr.oob ∧
    SplitOn emptyPartition 5 = Except.error PErr.oob ∧
    SplitRefine emptyPartition 5 = Except.error PErr.oob := by
  obtain ⟨h1, h2, h3, h4, h5, h6⟩ := C8_unchecked_bounds emptyPartition 5 (by decide) (by decide)
  exact ⟨h1, h2, h3 0, h4 0, h5, h6⟩

theorem getE_eq {es : List Element} {i : Int} (hlt : i.toNat < es.length) :
    getE es i = es.get ⟨i.toNat, hlt⟩ := by
  simp only [getE, List.getD_eq_get es _ hlt]

theorem get_eq_getE {es : List Element} {x : Nat} (hx : x < es.length) :
    es.get ⟨x, hx⟩ = getE es (x : Int) := by
  rw [getE_eq (by simpa using hx)]
  rfl

theorem upd_eq_set {α : Type} {es : List α} {i : Int} (a : α) (h0 : 0 ≤ i) :
    upd es i a = es.set i.toNat a := by
  unfold upd
  rw [if_pos h0]

theorem upd_eq_self {α : Type} {es : List α} {i : Int} (a : α) (h0 : ¬ 0 ≤ i) :
    upd es i a = es := by
  unfold upd
  rw [if_neg h0]

theorem getE_upd_eq {es : List Element} {i : Int} (a : Element) (h0 : 0 ≤ i)
    (hlt : i.toNat < es.length) : getE (upd es i a) i = a := by
  rw [upd_eq_set a h0]
  have hlt' : i.toNat < (es.set i.toNat a).length := by simpa using hlt
  rw [getE, List.getD_eq_get _ _ hlt']
  simp only [List.get_eq_getElem, List.getElem_set_self]

theorem getE_upd_ne {es : List Element} {i j : Int} (a : Element)
    (hne : ¬(0 ≤ i ∧ i.toNat = j.toNat)) : getE (upd es i a) j = getE es j := by
  by_cases h0 : 0 ≤ i
  · have hxx : i.toNat ≠ j.toNat := fun hh => hne ⟨h0, hh⟩
    rw [upd_eq_set a h0]
    simp only [getE]
    rw [List.getD_eq_getElem?_getD, List.getD_eq_getElem?_getD,
        List.getElem?_set_ne hxx]
  · rw [upd_eq_self a h0]

theorem IsDLL_mem_lt {es : List Element} {pv h : Int} {l : List Nat}
    (W : IsDLL es pv h l) : ∀ x ∈ l, x < es.length := by
  induction W with
  | nil hneg => intro x hx; cases hx
  | cons h0 hlt hprev htail ih =>
    intro x hx
    rcases List.mem_cons.mp hx with rfl | hx
    · exact hlt
    · exact ih x hx

theorem IsDLL_nil_neg {es : List Element} {pv h : Int}
    (W : IsDLL es pv h []) : h < 0 := by
  cases W with
  | nil hneg => exact hneg

theorem IsDLL_head_mem {es : List Element} {pv h : Int} {l : List Nat}
    (W : IsDLL es pv h l) (h0 : 0 ≤ h) : h.toNat ∈ l := by
  cases W with
  | nil hneg => omega
  | cons _ _ _ _ => exact List.mem_cons_self _ _

theorem IsDLL_length_le {es : List Element} {pv h : Int} {l : List Nat}
    (W : IsDLL es pv h l) (nd : l.Nodup) : l.length ≤ es.length := by
  have hsub : l ⊆ List.range es.length := fun x hx =>
    List.mem_range.mpr (IsDLL_mem_lt W x hx)
  have := (List.subperm_of_subset nd hsub).length_le
  simpa using this

theorem IsDLL_frame {es es' : List Element} (hlen : es'.length = es.length)
    {pv h : Int} {l : List Nat} (W : IsDLL es pv h l)
    (hsame : ∀ x ∈ l, getE es' (x : Int) = getE es (x : Int)) :
    IsDLL es' pv h l := by
  induction W with
  | nil hneg => exact .nil hneg
  | @cons pv h l h0 hlt hprev htail ih =>
    have hlt' : h.toNat < es'.length := by omega
    have hget : es'.get ⟨h.toNat, hlt'⟩ = es.get ⟨h.toNat, hlt⟩ := by
      rw [get_eq_getE hlt', get_eq_getE hlt]
      exact hsame h.toNat (List.mem_cons_self _ _)
    refine .cons h0 hlt' ?_ ?_
    · rw [hget]; exact hprev
    · rw [hget]
      exact ih (fun x hx => hsame x (List.mem_cons_of_mem _ hx))

theorem IsDLL_links_frame {es es' : List Element} (hlen : es'.length = es.length)
    (hsame : ∀ x : Nat, x < es.length →
      (getE es' (x : Int)).next_element = (getE es (x : Int)).next_element ∧
      (getE es' (x : Int)).prev_element = (getE es (x : Int)).prev_element)
    {pv h : Int} {l : List Nat} (W : IsDLL es pv h l) : IsDLL es' pv h l := by
  induction W with
  | nil hneg => exact .nil hneg
  | @cons pv h l h0 hlt hprev htail ih =>
    have hlt' : h.toNat < es'.length := by omega
    refine .cons h0 hlt' ?_ ?_
    · rw [get_eq_getE hlt'] at *
      rw [(hsame h.toNat hlt).2]
      rw [get_eq_getE hlt] at hprev
      exact hprev
    · rw [get_eq_getE hlt']
      rw [(hsame h.toNat hlt).1]
      rw [get_eq_getE hlt] at htail ih
      exact ih

theorem IsDLL_reprev {es : List Element} {pv newp h : Int} {l : List Nat}
    (W : IsDLL es pv h l) (nd : l.Nodup) {es' : List Element}
    (hes' : (h < 0 ∧ es' = es) ∨
      (0 ≤ h ∧ es' = upd es h { getE es h with prev_element := newp })) :
    IsDLL es' newp h l := by
  cases W with
  | nil hneg =>
    rcases hes' with ⟨_, rfl⟩ | ⟨_, rfl⟩
    · exact .nil hneg
    · exact .nil hneg
  | @cons _ _ l' h0 hlt hprev htail =>
    rcases hes' with ⟨hneg, rfl⟩ | ⟨_, rfl⟩
    · omega
    · have hup : (upd es h { getE es h with prev_element := newp }).length = es.length :=
        upd_length _ _ _
      have hlt' : h.toNat < (upd es h { getE es h with prev_element := newp }).length := by
        omega
      have hget : (upd es h { getE es h with prev_element := newp }).get ⟨h.toNat, hlt'⟩ =
          { getE es h with prev_element := newp } := by
        rw [get_eq_getE hlt', Int.toNat_of_nonneg h0]
        exact getE_upd_eq _ h0 hlt
      refine .cons h0 hlt' ?_ ?_
      · rw [hget]
      · rw [hget]
        have hnext : ({ getE es h with prev_element := newp }).next_element =
            (es.get ⟨h.toNat, hlt⟩).next_element := by
          rw [getE_eq hlt]
        rw [hnext]
        refine IsDLL_frame hup htail ?_
        intro x hx
        refine getE_upd_ne _ (fun hh => ?_)
        have hnm : h.toNat ∉ l' := (List.nodup_cons.mp nd).1
        have : h.toNat = x := by
          have := hh.2
          omega
        exact hnm (this ▸ hx)

theorem IsDLL_chase {es : List Element} {pv h : Int} {l : List Nat}
    (W : IsDLL es pv h l) : ∀ fuel, l.length ≤ fuel → chase es fuel h = l := by
  induction W with
  | nil hneg =>
    intro fuel _
    cases fuel with
    | zero => rfl
    | succ f =>
      simp only [chase]
      rw [dif_neg (by omega)]
  | @cons pv h l h0 hlt hprev htail ih =>
    intro fuel hf
    cases fuel with
    | zero => simp at hf
    | succ f =>
      simp only [chase]
      rw [dif_pos ⟨h0, hlt⟩]
      simp only [List.length_cons] at hf
      rw [ih f (by omega)]

theorem IsDLL_cons_inv {es : List Element} {pv hd : Int} {x : Nat} {l : List Nat}
    (W : IsDLL es pv hd (x :: l)) :
    ∃ (hx : x < es.length), hd = (x : Int) ∧ (es.get ⟨x, hx⟩).prev_element = pv ∧
      IsDLL es (x : Int) ((es.get ⟨x, hx⟩).next_element) l := by
  cases W with
  | cons h0 hlt hprev htail =>
    rw [Int.toNat_of_nonneg h0]
    exact ⟨hlt, rfl, hprev, htail⟩

theorem excise1_len (es : List Element) (ee : Element) :
    (excise1 es ee).length = es.length := by
  unfold excise1
  split
  · exact upd_length _ _ _
  · rfl

theorem excise_len (es : List Element) (ee : Element) :
    (excise es ee).length = es.length := by
  unfold excise
  split
  · rw [upd_length]
    exact excise1_len es ee
  · exact excise1_len es ee

theorem IsDLL_excise {es : List Element} :
    ∀ (l1 : List Nat) {hd pv : Int} {e : Nat} {l2 : List Nat},
    IsDLL es pv hd (l1 ++ e :: l2) →
    (l1 ++ e :: l2).Nodup →
    (pv < 0 ∨ (0 ≤ pv ∧ pv.toNat ∉ l1 ++ e :: l2)) →
    ∃ (he : e < es.length),
      (l1 = [] → hd = (e : Int) ∧ (es.get ⟨e, he⟩).prev_element = pv) ∧
      (l1 ≠ [] → 0 ≤ (es.get ⟨e, he⟩).prev_element ∧
        (es.get ⟨e, he⟩).prev_element.toNat ∈ l1) ∧
      (0 ≤ (es.get ⟨e, he⟩).next_element → (es.get ⟨e, he⟩).next_element.toNat ∈ l2) ∧
      IsDLL (excise es (es.get ⟨e, he⟩)) pv
        (if l1 = [] then (es.get ⟨e, he⟩).next_element else hd) (l1 ++ l2)
  | [], hd, pv, e, l2, W, nd, hpv => by
    simp only [List.nil_append] at W nd ⊢
    obtain ⟨he, hhd, hprev, htail⟩ := IsDLL_cons_inv W
    refine ⟨he, fun _ => ⟨hhd, hprev⟩, fun hc => absurd rfl hc, ?_, ?_⟩
    · intro hnn
      exact IsDLL_head_mem htail hnn
    · rw [if_pos trivial]
      have hnd2 : l2.Nodup := (List.nodup_cons.mp nd).2
      have htail1 : IsDLL (excise1 es (es.get ⟨e, he⟩)) (e : Int)
          (es.get ⟨e, he⟩).next_element l2 := by
        refine IsDLL_frame (excise1_len _ _) htail ?_
        intro x hx
        unfold excise1
        by_cases hple : 0 ≤ (es.get ⟨e, he⟩).prev_element
        · rw [if_pos hple]
          refine getE_upd_ne _ (fun hh => ?_)
          rw [hprev] at hh
          rcases hpv with hneg | ⟨_, hmem⟩
          · omega
          · refine hmem ?_
            have hpx : pv.toNat = x := by simpa using hh.2
            rw [hpx]
            exact List.mem_cons_of_mem _ hx
        · rw [if_neg hple]
      rw [← hprev]
      refine IsDLL_reprev htail1 hnd2 ?_
      unfold excise
      by_cases hnn : 0 ≤ (es.get ⟨e, he⟩).next_element
      · right
        refine ⟨hnn, ?_⟩
        rw [if_pos hnn]
      · left
        refine ⟨by omega, ?_⟩
        rw [if_neg hnn]
  | a :: l1', hd, pv, e, l2, W, nd, hpv => by
    obtain ⟨ha, hhd, hpreva, htaila⟩ := IsDLL_cons_inv W
    have nd' : (l1' ++ e :: l2).Nodup := (List.nodup_cons.mp nd).2
    have hanotin : a ∉ l1' ++ e :: l2 := (List.nodup_cons.mp nd).1
    obtain ⟨he, hbase, hstep, hnextmem, Wex⟩ :=
      IsDLL_excise l1' htaila nd' (Or.inr ⟨by omega, by simpa using hanotin⟩)
    have hanotl2 : a ∉ l2 := fun hc => hanotin (by simp [hc])
    have hanote : a ≠ e := fun hc => hanotin (by simp [hc])
    have hanotl1' : a ∉ l1' := fun hc => hanotin (by simp [hc])
    refine ⟨he, fun hc => absurd hc (by simp), ?_, hnextmem, ?_⟩
    · intro _
      by_cases hl1 : l1' = []
      · obtain ⟨hhd', hprev'⟩ := hbase hl1
        rw [hprev']
        refine ⟨by omega, ?_⟩
        simp
      · obtain ⟨hp0, hpmem⟩ := hstep hl1
        exact ⟨hp0, List.mem_cons_of_mem _ hpmem⟩
    · rw [if_neg (by simp)]
      rw [hhd]
      -- compute the record of a in the excised array
      have hgeta : getE (excise es (es.get ⟨e, he⟩)) (a : Int) =
          (if l1' = [] then
            { getE es (a : Int) with next_element := (es.get ⟨e, he⟩).next_element }
          else getE es (a : Int)) := by
        have hstep2 : getE (excise es (es.get ⟨e, he⟩)) (a : Int) =
            getE (excise1 es (es.get ⟨e, he⟩)) (a : Int) := by
          unfold excise
          by_cases hnn : 0 ≤ (es.get ⟨e, he⟩).next_element
          · rw [if_pos hnn]
            refine getE_upd_ne _ (fun hh => ?_)
            have hmem := hnextmem hnn
            have hna : (es.get ⟨e, he⟩).next_element.toNat = a := by simpa using hh.2
            exact hanotl2 (hna ▸ hmem)
          · rw [if_neg hnn]
        rw [hstep2]
        by_cases hl1 : l1' = []
        · rw [if_pos hl1]
          obtain ⟨hhd', hprev'⟩ := hbase hl1
          unfold excise1
          rw [if_pos (by rw [hprev']; omega)]
          rw [hprev']
          have := @getE_upd_eq es ((a : Int))
            { getE es (a : Int) with next_element := (es.get ⟨e, he⟩).next_element }
            (by omega) (by simpa using ha)
          simpa using this
        · rw [if_neg hl1]
          obtain ⟨hp0, hpmem⟩ := hstep hl1
          unfold excise1
          rw [if_pos hp0]
          refine getE_upd_ne _ (fun hh => ?_)
          have hna : (es.get ⟨e, he⟩).prev_element.toNat = a := by simpa using hh.2
          exact hanotl1' (hna ▸ hpmem)
      have halen : a < (excise es (es.get ⟨e, he⟩)).length := by
        rw [excise_len]
        exact ha
      have hget' : (excise es (es.get ⟨e, he⟩)).get ⟨a, halen⟩ =
          (if l1' = [] then
            { getE es (a : Int) with next_element := (es.get ⟨e, he⟩).next_element }
          else getE es (a : Int)) := by
        rw [get_eq_getE halen]
        exact hgeta
      refine IsDLL.cons (by omega) (by simpa using halen) ?_ ?_
      · show ((excise es (es.get ⟨e, he⟩)).get ⟨a, halen⟩).prev_element = pv
        rw [hget']
        rw [get_eq_getE ha] at hpreva
        by_cases hl1 : l1' = []
        · rw [if_pos hl1]
          exact hpreva
        · rw [if_neg hl1]
          exact hpreva
      · show IsDLL (excise es (es.get ⟨e, he⟩)) (a : Int)
          ((excise es (es.get ⟨e, he⟩)).get ⟨a, halen⟩).next_element (l1' ++ l2)
        rw [hget']
        by_cases hl1 : l1' = []
        · rw [if_pos hl1]
          rw [if_pos hl1] at Wex
          subst hl1
          exact Wex
        · rw [if_neg hl1]
          rw [if_neg hl1] at Wex
          rw [get_eq_getE ha] at Wex
          exact Wex

theorem excise_getE_ne {es : List Element} {ee : Element} {x : Nat}
    (hp : 0 ≤ ee.prev_element → ee.prev_element.toNat ≠ x)
    (hn : 0 ≤ ee.next_element → ee.next_element.toNat ≠ x) :
    getE (excise es ee) (x : Int) = getE es (x : Int) := by
  have h1 : getE (excise1 es ee) (x : Int) = getE es (x : Int) := by
    unfold excise1
    by_cases hple : 0 ≤ ee.prev_element
    · rw [if_pos hple]
      refine getE_upd_ne _ (fun hh => ?_)
      exact hp hple (by simpa using hh.2)
    · rw [if_neg hple]
  unfold excise
  by_cases hnn : 0 ≤ ee.next_element
  · rw [if_pos hnn]
    rw [← h1]
    refine getE_upd_ne _ (fun hh => ?_)
    exact hn hnn (by simpa using hh.2)
  · rw [if_neg hnn]
    exact h1

theorem pushFront_len (es : List Element) (e : Nat) (cid ytag hd : Int) :
    (pushFront es e cid ytag hd).length = es.length := by
  unfold pushFront
  rw [upd_length]
  split
  · exact upd_length _ _ _
  · rfl

theorem pushFront_getE_self {es : List Element} {e : Nat} (cid ytag hd : Int)
    (he : e < es.length) :
    getE (pushFront es e cid ytag hd) (e : Int) = ⟨cid, ytag, hd, -1⟩ := by
  unfold pushFront
  refine getE_upd_eq _ (by omega) ?_
  simp only [Int.toNat_natCast]
  split
  · rw [upd_length]
    exact he
  · exact he

theorem pushFront_getE_ne {es : List Element} {e : Nat} {cid ytag hd : Int} {x : Nat}
    (hhd : 0 ≤ hd → hd.toNat ≠ x) (hex : e ≠ x) :
    getE (pushFront es e cid ytag hd) (x : Int) = getE es (x : Int) := by
  unfold pushFront
  have h2 : getE (if 0 ≤ hd then upd es hd { getE es hd with prev_element := (e : Int) } else es)
      (x : Int) = getE es (x : Int) := by
    by_cases hh : 0 ≤ hd
    · rw [if_pos hh]
      refine getE_upd_ne _ (fun hc => ?_)
      exact hhd hh (by simpa using hc.2)
    · rw [if_neg hh]
  rw [← h2]
  refine getE_upd_ne _ (fun hc => ?_)
  exact hex (by simpa using hc.2)

theorem pushFront_dll {es : List Element} {hd : Int} {l : List Nat} {e : Nat}
    (W : IsDLL es (-1) hd l) (nd : l.Nodup) (he : e < es.length) (hnotin : e ∉ l)
    (cid ytag : Int) :
    IsDLL (pushFront es e cid ytag hd) (-1) (e : Int) (e :: l) := by
  have hlen := pushFront_len es e cid ytag hd
  have hlt' : (e : Int).toNat < (pushFront es e cid ytag hd).length := by
    simpa using (hlen ▸ he)
  have hget : (pushFront es e cid ytag hd).get ⟨(e : Int).toNat, hlt'⟩ =
      (⟨cid, ytag, hd, -1⟩ : Element) := by
    rw [get_eq_getE hlt']
    simp only [Int.toNat_natCast]
    exact pushFront_getE_self cid ytag hd he
  refine IsDLL.cons (by omega) hlt' ?_ ?_
  · rw [hget]
  · rw [hget]
    show IsDLL (pushFront es e cid ytag hd) (e : Int) hd l
    -- first update the old head's prev to e, then frame over the write at e
    have hstep1 : IsDLL (if 0 ≤ hd then upd es hd { getE es hd with prev_element := (e : Int) } else es)
        (e : Int) hd l := by
      refine IsDLL_reprev W nd ?_
      by_cases hh : 0 ≤ hd
      · right
        exact ⟨hh, by rw [if_pos hh]⟩
      · left
        exact ⟨by omega, by rw [if_neg hh]⟩
    refine IsDLL_frame ?_ hstep1 ?_
    · unfold pushFront
      rw [upd_length]
    · intro x hx
      unfold pushFront
      refine getE_upd_ne _ (fun hc => ?_)
      have : e = x := by simpa using hc.2
      exact hnotin (this ▸ hx)

theorem relabel_spec (cid : Int) :
    ∀ (l : List Nat) {es : List Element} {pv hd : Int},
    IsDLL es pv hd l → l.Nodup → ∀ fuel, l.length ≤ fuel →
    ∃ es', relabel cid fuel es hd = Except.ok es' ∧ es'.length = es.length ∧
      (∀ x : Nat, getE es' (x : Int) =
        (if x ∈ l then { getE es (x : Int) with class_id := cid } else getE es (x : Int)))
  | [], es, pv, hd, W, nd, fuel, hf => by
    have hneg := IsDLL_nil_neg W
    refine ⟨es, ?_, rfl, ?_⟩
    · cases fuel with
      | zero =>
        unfold relabel
        rw [if_neg (by omega)]
        rfl
      | succ f =>
        unfold relabel
        rw [if_neg (by omega)]
        rfl
    · intro x
      rw [if_neg (by simp)]
  | x :: l', es, pv, hd, W, nd, fuel, hf => by
    obtain ⟨hx, hhd, hprev, htail⟩ := IsDLL_cons_inv W
    cases fuel with
    | zero => simp at hf
    | succ f =>
      have hnd' : l'.Nodup := (List.nodup_cons.mp nd).2
      have hxnot : x ∉ l' := (List.nodup_cons.mp nd).1
      -- the updated array after relabelling the head
      have hlen1 : (upd es hd { es.get ⟨x, hx⟩ with class_id := cid }).length = es.length :=
        upd_length _ _ _
      have hget1 : ∀ y : Nat, getE (upd es hd { es.get ⟨x, hx⟩ with class_id := cid }) (y : Int) =
          (if y = x then { getE es (y : Int) with class_id := cid } else getE es (y : Int)) := by
        intro y
        by_cases hyx : y = x
        · subst hyx
          rw [if_pos rfl, hhd]
          rw [getE_upd_eq _ (by omega) (by simpa using hx)]
          rw [get_eq_getE hx]
        · rw [if_neg hyx]
          refine getE_upd_ne _ (fun hc => ?_)
          rw [hhd] at hc
          have hyx2 : x = y := by simpa using hc.2
          exact hyx hyx2.symm
      have htail1 : IsDLL (upd es hd { es.get ⟨x, hx⟩ with class_id := cid })
          (x : Int) ((es.get ⟨x, hx⟩).next_element) l' := by
        refine IsDLL_links_frame hlen1 ?_ htail
        intro y hy
        rw [hget1 y]
        split
        · constructor <;> rfl
        · constructor <;> rfl
      obtain ⟨es', hok, hlen', hchar⟩ := relabel_spec cid l' htail1 hnd' f
        (by simp only [List.length_cons] at hf; omega)
      refine ⟨es', ?_, by rw [hlen', hlen1], ?_⟩
      · unfold relabel
        rw [if_pos (by omega)]
        have hidx : idx es hd = Except.ok (es.get ⟨x, hx⟩) := by
          rw [hhd]
          exact idx_of_valid es (x : Int) (by omega) (by simpa using hx)
        rw [hidx, ok_bind]
        exact hok
      · intro y
        rw [hchar y, hget1 y]
        by_cases hyl : y ∈ l'
        · rw [if_pos hyl, if_pos (List.mem_cons_of_mem _ hyl)]
          have hyx : ¬ y = x := fun hc => hxnot (hc ▸ hyl)
          rw [if_neg hyx]
        · rw [if_neg hyl]
          by_cases hyx : y = x
          · rw [if_pos hyx, if_pos (by simp [hyx])]
          · rw [if_neg hyx, if_neg (by simp [hyx, hyl])]

theorem idx_ok_elim {α : Type} {l : List α} {i : Int} {a : α}
    (h : idx l i = Except.ok a) :
    ∃ (h0 : 0 ≤ i) (hlt : i.toNat < l.length), a = l.get ⟨i.toNat, hlt⟩ := by
  have hb := idx_bounds h
  refine ⟨hb.1, hb.2, ?_⟩
  rw [idx_of_valid l i hb.1 hb.2] at h
  exact (Except.ok.injEq _ _ ▸ h).symm

theorem idx_ok_getE {l : List Element} {i : Int} {a : Element}
    (h : idx l i = Except.ok a) : a = getE l i := by
  obtain ⟨h0, hlt, rfl⟩ := idx_ok_elim h
  rw [getE_eq hlt]

theorem upd_get_nat_self {α : Type} {l : List α} {i : Int} (a : α) (h0 : 0 ≤ i)
    {x : Nat} (hix : i.toNat = x) (hx : x < (upd l i a).length) :
    (upd l i a).get ⟨x, hx⟩ = a := by
  subst hix
  simp only [List.get_eq_getElem, upd_eq_set a h0, List.getElem_set_self]

theorem upd_get_nat_ne {α : Type} {l : List α} {i : Int} (a : α) {x : Nat}
    (hne : ¬(0 ≤ i ∧ i.toNat = x)) (hx' : x < (upd l i a).length)
    (hx : x < l.length) :
    (upd l i a).get ⟨x, hx'⟩ = l.get ⟨x, hx⟩ := by
  by_cases h0 : 0 ≤ i
  · have hxx : i.toNat ≠ x := fun hh => hne ⟨h0, hh⟩
    simp only [List.get_eq_getElem, upd_eq_set a h0]
    exact List.getElem_set_ne hxx _
  · simp only [List.get_eq_getElem, upd_eq_self a h0]

theorem sumSizes_upd {l : List PClass} {i : Int} (a : PClass) (h0 : 0 ≤ i)
    (hlt : i.toNat < l.length) :
    ((upd l i a).map PClass.size).sum =
      (l.map PClass.size).sum + a.size - (l.get ⟨i.toNat, hlt⟩).size := by
  rw [upd_eq_set a h0]
  rw [List.map_set]
  rw [List.sum_set']
  rw [dif_pos (by simpa using hlt)]
  simp only [List.getElem_map, List.get_eq_getElem]
  ring

theorem sumSizes_append (l : List PClass) (a : PClass) :
    ((l ++ [a]).map PClass.size).sum = (l.map PClass.size).sum + a.size := by
  simp

theorem noL_nodup {p : Partition} (w : WFData p) {cc : Nat}
    (hcc : cc < p.classes_.length) : (w.noL cc).Nodup :=
  (List.nodup_append.mp (w.nodup_each cc hcc)).1

theorem yesL_nodup {p : Partition} (w : WFData p) {cc : Nat}
    (hcc : cc < p.classes_.length) : (w.yesL cc).Nodup :=
  (List.nodup_append.mp (w.nodup_each cc hcc)).2.1

theorem noyes_disj {p : Partition} (w : WFData p) {cc : Nat}
    (hcc : cc < p.classes_.length) {x : Nat}
    (hx : x ∈ w.noL cc) (hy : x ∈ w.yesL cc) : False :=
  (List.nodup_append.mp (w.nodup_each cc hcc)).2.2 hx hy

theorem wf_add_core {p p' : Partition} {e : Nat} {c : Int} {cl : PClass}
    (w : WFData p)
    (hun : ∀ cc, cc < p.classes_.length → e ∉ w.noL cc ∧ e ∉ w.yesL cc)
    (he : e < p.elements_.length)
    (hcl : idx p.classes_ c = Except.ok cl)
    (hE : p'.elements_ = pushFront p.elements_ e c 0 cl.no_head)
    (hC : p'.classes_ = upd p.classes_ c
      { cl with size := cl.size + 1, no_head := (e : Int) }) :
    WF p' := by
  obtain ⟨hc0, hclt, hclv⟩ := idx_ok_elim hcl
  have hK : p'.classes_.length = p.classes_.length := by
    rw [hC, upd_length]
  have hlenE : p'.elements_.length = p.elements_.length := by
    rw [hE, pushFront_len]
  have hdllc : IsDLL p.elements_ (-1) cl.no_head (w.noL c.toNat) := by
    have hh := w.dll_no c.toNat hclt
    rw [← hclv] at hh
    exact hh
  have hheadmem : 0 ≤ cl.no_head → cl.no_head.toNat ∈ w.noL c.toNat :=
    fun hh => IsDLL_head_mem hdllc hh
  -- frame for any list disjoint from the write targets
  have hframe : ∀ (L : List Nat), (∀ x ∈ L, e ≠ x) →
      (∀ x ∈ L, 0 ≤ cl.no_head → cl.no_head.toNat ≠ x) →
      ∀ x ∈ L, getE p'.elements_ (x : Int) = getE p.elements_ (x : Int) := by
    intro L hne hnh x hx
    rw [hE]
    exact pushFront_getE_ne (fun hh => hnh x hx hh) (hne x hx)
  have hgetc_eq : ∀ (hcc : c.toNat < p'.classes_.length),
      p'.classes_.get ⟨c.toNat, hcc⟩ =
        { cl with size := cl.size + 1, no_head := (e : Int) } := by
    intro hcc
    rw [List.get_of_eq hC]
    exact upd_get_nat_self _ hc0 rfl _
  have hgetc_ne : ∀ (cc : Nat), cc ≠ c.toNat → ∀ (hcc : cc < p'.classes_.length),
      p'.classes_.get ⟨cc, hcc⟩ = p.classes_.get ⟨cc, by omega⟩ := by
    intro cc hne hcc
    rw [List.get_of_eq hC]
    exact upd_get_nat_ne _ (fun hh => hne hh.2.symm) _ (by omega)
  refine ⟨⟨(fun cc => if cc = c.toNat then e :: w.noL c.toNat else w.noL cc),
          w.yesL, ?_, ?_, ?_, ?_, ?_, ?_⟩⟩
  · -- dll_no
    intro cc hcc
    beta_reduce
    by_cases hcd : cc = c.toNat
    · subst hcd
      rw [if_pos (Eq.refl c.toNat), hgetc_eq hcc]
      show IsDLL p'.elements_ (-1) (e : Int) (e :: w.noL c.toNat)
      rw [hE]
      exact pushFront_dll hdllc (noL_nodup w hclt) he (hun c.toNat hclt).1 c 0
    · rw [if_neg hcd, hgetc_ne cc hcd hcc]
      refine IsDLL_frame (by omega) (w.dll_no cc (by omega)) ?_
      refine hframe _ (fun x hx => fun hex => (hun cc (by omega)).1 (hex ▸ hx)) ?_
      intro x hx hh heq
      exact hcd (w.disj cc c.toNat (by omega) hclt x (by simp [hx])
        (by simp [heq ▸ hheadmem hh]))
  · -- dll_yes
    intro cc hcc
    by_cases hcd : cc = c.toNat
    · subst hcd
      rw [hgetc_eq hcc]
      show IsDLL p'.elements_ (-1) cl.yes_head (w.yesL c.toNat)
      have hold := w.dll_yes c.toNat hclt
      rw [← hclv] at hold
      refine IsDLL_frame (by omega) hold ?_
      refine hframe _ (fun x hx => fun hex => (hun c.toNat hclt).2 (hex ▸ hx)) ?_
      intro x hx hh heq
      exact noyes_disj w hclt (heq ▸ hheadmem hh) hx
    · rw [hgetc_ne cc hcd hcc]
      refine IsDLL_frame (by omega) (w.dll_yes cc (by omega)) ?_
      refine hframe _ (fun x hx => fun hex => (hun cc (by omega)).2 (hex ▸ hx)) ?_
      intro x hx hh heq
      exact hcd (w.disj cc c.toNat (by omega) hclt x (by simp [hx])
        (by simp [heq ▸ hheadmem hh]))
  · -- size_eq
    intro cc hcc
    beta_reduce
    by_cases hcd : cc = c.toNat
    · subst hcd
      rw [if_pos (Eq.refl c.toNat), hgetc_eq hcc]
      have hold := w.size_eq c.toNat hclt
      rw [← hclv] at hold
      show ((e :: w.noL c.toNat).length : Int) + cl.yes_size = cl.size + 1
      simp only [List.length_cons]
      push_cast
      omega
    · rw [if_neg hcd, hgetc_ne cc hcd hcc]
      exact w.size_eq cc (by omega)
  · -- yes_size_eq
    intro cc hcc
    by_cases hcd : cc = c.toNat
    · subst hcd
      rw [hgetc_eq hcc]
      have hold := w.yes_size_eq c.toNat hclt
      rw [← hclv] at hold
      exact hold
    · rw [hgetc_ne cc hcd hcc]
      exact w.yes_size_eq cc (by omega)
  · -- nodup_each
    intro cc hcc
    beta_reduce
    by_cases hcd : cc = c.toNat
    · subst hcd
      rw [if_pos (Eq.refl c.toNat)]
      show (e :: (w.noL c.toNat ++ w.yesL c.toNat)).Nodup
      refine List.nodup_cons.mpr ⟨?_, w.nodup_each c.toNat hclt⟩
      intro hc
      rcases List.mem_append.mp hc with hc | hc
      · exact (hun c.toNat hclt).1 hc
      · exact (hun c.toNat hclt).2 hc
    · rw [if_neg hcd]
      exact w.nodup_each cc (by omega)
  · -- disj
    intro cc cc' hcc hcc' x hx hx'
    beta_reduce at hx hx'
    have hKcc : cc < p.classes_.length := by omega
    have hKcc' : cc' < p.classes_.length := by omega
    have hred : ∀ b, b < p.classes_.length →
        x ∈ (if b = c.toNat then e :: w.noL c.toNat else w.noL b) ++ w.yesL b →
        (x = e ∧ b = c.toNat) ∨ x ∈ w.noL b ++ w.yesL b := by
      intro b hb hxb
      by_cases hbd : b = c.toNat
      · rw [if_pos hbd] at hxb
        rcases List.mem_append.mp hxb with hxb | hxb
        · rcases List.mem_cons.mp hxb with rfl | hxb
          · exact Or.inl ⟨rfl, hbd⟩
          · exact Or.inr (List.mem_append.mpr (Or.inl (by rw [hbd]; exact hxb)))
        · exact Or.inr (List.mem_append.mpr (Or.inr hxb))
      · rw [if_neg hbd] at hxb
        exact Or.inr hxb
    rcases hred cc hKcc hx with ⟨rfl, rfl⟩ | hxo
    · rcases hred cc' hKcc' hx' with ⟨_, rfl⟩ | hxo'
      · rfl
      · exfalso
        rcases List.mem_append.mp hxo' with hmm | hmm
        · exact (hun cc' hKcc').1 hmm
        · exact (hun cc' hKcc').2 hmm
    · rcases hred cc' hKcc' hx' with ⟨rfl, rfl⟩ | hxo'
      · exfalso
        rcases List.mem_append.mp hxo with hmm | hmm
        · exact (hun cc hKcc).1 hmm
        · exact (hun cc hKcc).2 hmm
      · exact w.disj cc cc' hKcc hKcc' x hxo hxo'

theorem add_ok_shape {p p' : Partition} {e c : Int}
    (h : Add p e c = Except.ok p') :
    ∃ cl, 0 ≤ e ∧ e.toNat < p.elements_.length ∧
      idx p.classes_ c = Except.ok cl ∧
      p'.elements_ = pushFront p.elements_ e.toNat c 0 cl.no_head ∧
      p'.classes_ = upd p.classes_ c { cl with size := cl.size + 1, no_head := (e : Int) } ∧
      p'.visited_classes_ = p.visited_classes_ ∧
      p'.yes_counter_ = p.yes_counter_ := by
  rcases hel : idx p.elements_ e with err | el
  · rw [Add, hel, error_bind] at h
    exact absurd h (by simp)
  · obtain ⟨he0, helt, helv⟩ := idx_ok_elim hel
    rw [Add, hel, ok_bind] at h
    rcases hcl : idx p.classes_ c with err | cl
    · rw [hcl, error_bind] at h
      exact absurd h (by simp)
    · simp only [hcl, ok_bind] at h
      by_cases hnh : 0 ≤ cl.no_head
      · rw [if_pos hnh] at h
        rcases hno : idx p.elements_ cl.no_head with err | hrec <;> rw [hno] at h
        · exact absurd h (by simp [error_bind])
        · simp only [ok_bind, pure_bind, pure, Except.pure, Except.ok.injEq] at h
          subst h
          refine ⟨cl, he0, helt, rfl, ?_, rfl, rfl, rfl⟩
          show upd (upd p.elements_ cl.no_head
              { hrec with next_element := hrec.next_element, prev_element := e }) e
              { el with class_id := c, yes := 0, next_element := cl.no_head, prev_element := -1 } = _
          unfold pushFront
          rw [if_pos hnh]
          rw [idx_ok_getE hno]
          rw [Int.toNat_of_nonneg he0]
      · rw [if_neg hnh] at h
        simp only [ok_bind, pure_bind, pure, Except.pure, Except.ok.injEq] at h
        subst h
        refine ⟨cl, he0, helt, rfl, ?_, rfl, rfl, rfl⟩
        show upd p.elements_ e
            { el with class_id := c, yes := 0, next_element := cl.no_head, prev_element := -1 } = _
        unfold pushFront
        rw [if_neg hnh]
        rw [Int.toNat_of_nonneg he0]

theorem wf_add {p p' : Partition} {e c : Int} (w : WFData p)
    (hun : ∀ cc, cc < p.classes_.length → e.toNat ∉ w.noL cc ∧ e.toNat ∉ w.yesL cc)
    (h : Add p e c = Except.ok p') : WF p' := by
  obtain ⟨cl, he0, helt, hcl, hE, hC, _, _⟩ := add_ok_shape h
  exact wf_add_core w hun helt hcl hE
    (by rw [hC, Int.toNat_of_nonneg he0])

theorem sum_add {p p' : Partition} {e c : Int}
    (h : Add p e c = Except.ok p') : sumSizes p' = sumSizes p + 1 := by
  obtain ⟨cl, he0, helt, hcl, hE, hC, _, _⟩ := add_ok_shape h
  obtain ⟨hc0, hclt, hclv⟩ := idx_ok_elim hcl
  unfold sumSizes
  rw [hC, sumSizes_upd _ hc0 hclt]
  rw [← hclv]
  show (p.classes_.map PClass.size).sum + (cl.size + 1) - cl.size = _
  ring

theorem splitOn_ok_shape {p p' : Partition} {e : Int}
    (h : SplitOn p e = Except.ok p') :
    (∃ el, idx p.elements_ e = Except.ok el ∧ el.yes = p.yes_counter_ ∧ p' = p) ∨
    (∃ el cl, idx p.elements_ e = Except.ok el ∧ el.yes ≠ p.yes_counter_ ∧
      idx p.classes_ el.class_id = Except.ok cl ∧
      p'.elements_ = pushFront (excise p.elements_ el) e.toNat el.class_id
        p.yes_counter_ cl.yes_head ∧
      p'.classes_ = upd p.classes_ el.class_id
        { cl with no_head := (if 0 ≤ el.prev_element then cl.no_head else el.next_element),
                  yes_head := (e : Int), yes_size := cl.yes_size + 1 } ∧
      p'.yes_counter_ = p.yes_counter_) := by
  rcases hel : idx p.elements_ e with err | el
  · rw [SplitOn, hel, error_bind] at h
    exact absurd h (by simp)
  · have hbe := idx_bounds hel
    rw [SplitOn, hel, ok_bind] at h
    by_cases hy : el.yes = p.yes_counter_
    · rw [if_pos hy] at h
      have hpp : p = p' := by simpa [pure, Except.pure] using h
      exact Or.inl ⟨el, rfl, hy, hpp.symm⟩
    · rw [if_neg hy] at h
      simp only [pure_bind, ok_bind, error_bind] at h
      rcases hcl : idx p.classes_ el.class_id with err | cl <;> rw [hcl] at h
      · exact absurd h (by simp [error_bind])
      · simp only [ok_bind] at h
        refine Or.inr ⟨el, cl, rfl, hy, hcl, ?_⟩
        by_cases hprev : 0 ≤ el.prev_element
        · rw [if_pos hprev] at h
          rcases hpe : idx p.elements_ el.prev_element with err | pe <;> rw [hpe] at h
          · exact absurd h (by simp [error_bind])
          · simp only [ok_bind] at h
            have hex1 : upd p.elements_ el.prev_element
                { pe with next_element := el.next_element } = excise1 p.elements_ el := by
              unfold excise1
              rw [if_pos hprev, ← idx_ok_getE hpe]
            rw [hex1] at h
            by_cases hnext : 0 ≤ el.next_element
            · rw [if_pos hnext] at h
              rcases hne : idx (excise1 p.elements_ el) el.next_element with err | ne <;>
                rw [hne] at h
              · exact absurd h (by simp [error_bind])
              · simp only [ok_bind] at h
                have hex2 : upd (excise1 p.elements_ el) el.next_element
                    { ne with prev_element := el.prev_element } = excise p.elements_ el := by
                  unfold excise
                  rw [if_pos hnext, ← idx_ok_getE hne]
                rw [hex2] at h
                by_cases hyh : 0 ≤ cl.yes_head
                · rw [if_pos hyh] at h
                  rcases hyhv : idx (excise p.elements_ el) cl.yes_head with err | yh <;>
                    rw [hyhv] at h
                  · exact absurd h (by simp [error_bind])
                  · simp only [ok_bind] at h
                    by_cases hchk : ¬ cl.yes_size + 1 ≤ cl.size
                    · rw [if_pos hchk] at h
                      exact absurd h (by simp [throw_eq, error_bind])
                    · rw [if_neg hchk] at h
                      simp only [pure, Except.pure, Except.ok.injEq] at h
                      subst h
                      refine ⟨?_, ?_, rfl⟩
                      · show upd (upd (excise p.elements_ el) cl.yes_head { yh with prev_element := e }) e { el with yes := p.yes_counter_, next_element := cl.yes_head, prev_element := -1 } = _
                        unfold pushFront
                        rw [if_pos hyh, ← idx_ok_getE hyhv, Int.toNat_of_nonneg hbe.1]
                      · rw [if_pos hprev]
                · rw [if_neg hyh] at h
                  by_cases hchk : ¬ cl.yes_size + 1 ≤ cl.size
                  · rw [if_pos hchk] at h
                    exact absurd h (by simp [throw_eq, error_bind])
                  · rw [if_neg hchk] at h
                    simp only [pure, Except.pure, Except.ok.injEq] at h
                    subst h
                    refine ⟨?_, ?_, rfl⟩
                    · show upd (excise p.elements_ el) e { el with yes := p.yes_counter_, next_element := cl.yes_head, prev_element := -1 } = _
                      unfold pushFront
                      rw [if_neg hyh, Int.toNat_of_nonneg hbe.1]
                    · rw [if_pos hprev]
            · rw [if_neg hnext] at h
              have hex2 : excise1 p.elements_ el = excise p.elements_ el := by
                unfold excise
                rw [if_neg hnext]
              rw [hex2] at h
              by_cases hyh : 0 ≤ cl.yes_head
              · rw [if_pos hyh] at h
                rcases hyhv : idx (excise p.elements_ el) cl.yes_head with err | yh <;>
                  rw [hyhv] at h
                · exact absurd h (by simp [error_bind])
                · simp only [ok_bind] at h
                  by_cases hchk : ¬ cl.yes_size + 1 ≤ cl.size
                  · rw [if_pos hchk] at h
                    exact absurd h (by simp [throw_eq, error_bind])
                  · rw [if_neg hchk] at h
                    simp only [pure, Except.pure, Except.ok.injEq] at h
                    subst h
                    refine ⟨?_, ?_, rfl⟩
                    · show upd (upd (excise p.elements_ el) cl.yes_head { yh with prev_element := e }) e { el with yes := p.yes_counter_, next_element := cl.yes_head, prev_element := -1 } = _
                      unfold pushFront
                      rw [if_pos hyh, ← idx_ok_getE hyhv, Int.toNat_of_nonneg hbe.1]
                    · rw [if_pos hprev]
              · rw [if_neg hyh] at h
                by_cases hchk : ¬ cl.yes_size + 1 ≤ cl.size
                · rw [if_pos hchk] at h
                  exact absurd h (by simp [throw_eq, error_bind])
                · rw [if_neg hchk] at h
                  simp only [pure, Except.pure, Except.ok.injEq] at h
                  subst h
                  refine ⟨?_, ?_, rfl⟩
                  · show upd (excise p.elements_ el) e { el with yes := p.yes_counter_, next_element := cl.yes_head, prev_element := -1 } = _
                    unfold pushFront
                    rw [if_neg hyh, Int.toNat_of_nonneg hbe.1]
                  · rw [if_pos hprev]
        · rw [if_neg hprev] at h
          by_cases hnh : cl.no_head ≠ e
          · rw [if_pos hnh] at h
            exact absurd h (by simp [throw_eq, error_bind])
          · rw [if_neg hnh] at h
            have hex1 : p.elements_ = excise1 p.elements_ el := by
              unfold excise1
              rw [if_neg hprev]
            rw [hex1] at h
            by_cases hnext : 0 ≤ el.next_element
            · rw [if_pos hnext] at h
              rcases hne : idx (excise1 p.elements_ el) el.next_element with err | ne <;>
                rw [hne] at h
              · exact absurd h (by simp [error_bind])
              · simp only [ok_bind] at h
                have hex2 : upd (excise1 p.elements_ el) el.next_element
                    { ne with prev_element := el.prev_element } = excise p.elements_ el := by
                  unfold excise
                  rw [if_pos hnext, ← idx_ok_getE hne]
                rw [hex2] at h
                by_cases hyh : 0 ≤ cl.yes_head
                · rw [if_pos hyh] at h
                  rcases hyhv : idx (excise p.elements_ el) cl.yes_head with err | yh <;>
                    rw [hyhv] at h
                  · exact absurd h (by simp [error_bind])
                  · simp only [ok_bind] at h
                    by_cases hchk : ¬ cl.yes_size + 1 ≤ cl.size
                    · rw [if_pos hchk] at h
                      exact absurd h (by simp [throw_eq, error_bind])
                    · rw [if_neg hchk] at h
                      simp only [pure, Except.pure, Except.ok.injEq] at h
                      subst h
                      refine ⟨?_, ?_, rfl⟩
                      · show upd (upd (excise p.elements_ el) cl.yes_head { yh with prev_element := e }) e { el with yes := p.yes_counter_, next_element := cl.yes_head, prev_element := -1 } = _
                        unfold pushFront
                        rw [if_pos hyh, ← idx_ok_getE hyhv, Int.toNat_of_nonneg hbe.1]
                      · rw [if_neg hprev]
                · rw [if_neg hyh] at h
                  by_cases hchk : ¬ cl.yes_size + 1 ≤ cl.size
                  · rw [if_pos hchk] at h
                    exact absurd h (by simp [throw_eq, error_bind])
                  · rw [if_neg hchk] at h
                    simp only [pure, Except.pure, Except.ok.injEq] at h
                    subst h
                    refine ⟨?_, ?_, rfl⟩
                    · show upd (excise p.elements_ el) e { el with yes := p.yes_counter_, next_element := cl.yes_head, prev_element := -1 } = _
                      unfold pushFront
                      rw [if_neg hyh, Int.toNat_of_nonneg hbe.1]
                    · rw [if_neg hprev]
            · rw [if_neg hnext] at h
              have hex2 : excise1 p.elements_ el = excise p.elements_ el := by
                unfold excise
                rw [if_neg hnext]
              rw [hex2] at h
              by_cases hyh : 0 ≤ cl.yes_head
              · rw [if_pos hyh] at h
                rcases hyhv : idx (excise p.elements_ el) cl.yes_head with err | yh <;>
                  rw [hyhv] at h
                · exact absurd h (by simp [error_bind])
                · simp only [ok_bind] at h
                  by_cases hchk : ¬ cl.yes_size + 1 ≤ cl.size
                  · rw [if_pos hchk] at h
                    exact absurd h (by simp [throw_eq, error_bind])
                  · rw [if_neg hchk] at h
                    simp only [pure, Except.pure, Except.ok.injEq] at h
                    subst h
                    refine ⟨?_, ?_, rfl⟩
                    · show upd (upd (excise p.elements_ el) cl.yes_head { yh with prev_element := e }) e { el with yes := p.yes_counter_, next_element := cl.yes_head, prev_element := -1 } = _
                      unfold pushFront
                      rw [if_pos hyh, ← idx_ok_getE hyhv, Int.toNat_of_nonneg hbe.1]
                    · rw [if_neg hprev]
              · rw [if_neg hyh] at h
                by_cases hchk : ¬ cl.yes_size + 1 ≤ cl.size
                · rw [if_pos hchk] at h
                  exact absurd h (by simp [throw_eq, error_bind])
                · rw [if_neg hchk] at h
                  simp only [pure, Except.pure, Except.ok.injEq] at h
                  subst h
                  refine ⟨?_, ?_, rfl⟩
                  · show upd (excise p.elements_ el) e { el with yes := p.yes_counter_, next_element := cl.yes_head, prev_element := -1 } = _
                    unfold pushFront
                    rw [if_neg hyh, Int.toNat_of_nonneg hbe.1]
                  · rw [if_neg hprev]

theorem wf_splitOn_core {p p' : Partition} {e : Nat} {cl : PClass}
    (w : WFData p) (he : e < p.elements_.length)
    (hcl : idx p.classes_ (p.elements_.get ⟨e, he⟩).class_id = Except.ok cl)
    (hmem : e ∈ w.noL (p.elements_.get ⟨e, he⟩).class_id.toNat)
    (hE : p'.elements_ = pushFront (excise p.elements_ (p.elements_.get ⟨e, he⟩)) e
      (p.elements_.get ⟨e, he⟩).class_id p.yes_counter_ cl.yes_head)
    (hC : p'.classes_ = upd p.classes_ (p.elements_.get ⟨e, he⟩).class_id
      { cl with no_head := (if 0 ≤ (p.elements_.get ⟨e, he⟩).prev_element then cl.no_head
                            else (p.elements_.get ⟨e, he⟩).next_element),
                yes_head := (e : Int), yes_size := cl.yes_size + 1 }) :
    WF p' := by
  obtain ⟨hc0, hclt, hclv⟩ := idx_ok_elim hcl
  set d := (p.elements_.get ⟨e, he⟩).class_id.toNat with hd
  obtain ⟨l1, l2, hsplit⟩ := List.append_of_mem hmem
  have hndd : (w.noL d).Nodup := noL_nodup w hclt
  have hnd12 : (l1 ++ e :: l2).Nodup := hsplit ▸ hndd
  have hdll : IsDLL p.elements_ (-1) cl.no_head (l1 ++ e :: l2) := by
    rw [← hsplit]
    have hh := w.dll_no d hclt
    rw [← hclv] at hh
    exact hh
  obtain ⟨he', hbase, hstep, hnextmem, Wex⟩ :=
    IsDLL_excise l1 hdll hnd12 (Or.inl (by norm_num))
  have hee : p.elements_.get ⟨e, he'⟩ = p.elements_.get ⟨e, he⟩ := rfl
  rw [hee] at hbase hstep hnextmem Wex
  -- branch correspondence between the stored prev pointer and the split position
  have hheads : (if 0 ≤ (p.elements_.get ⟨e, he⟩).prev_element then cl.no_head
      else (p.elements_.get ⟨e, he⟩).next_element) =
      (if l1 = [] then (p.elements_.get ⟨e, he⟩).next_element else cl.no_head) := by
    by_cases hl1 : l1 = []
    · obtain ⟨_, hprev⟩ := hbase hl1
      rw [if_pos hl1, if_neg (by rw [hprev]; norm_num)]
    · obtain ⟨hp0, _⟩ := hstep hl1
      rw [if_neg hl1, if_pos hp0]
  -- membership facts
  have hmeml1 : ∀ x ∈ l1, x ∈ w.noL d := fun x hx => by
    rw [hsplit]
    exact List.mem_append.mpr (Or.inl hx)
  have hmeml2 : ∀ x ∈ l2, x ∈ w.noL d := fun x hx => by
    rw [hsplit]
    exact List.mem_append.mpr (Or.inr (List.mem_cons_of_mem _ hx))
  have hmid := List.nodup_middle.mp hnd12
  have henotin12 : e ∉ l1 ++ l2 := (List.nodup_cons.mp hmid).1
  have hnd12' : (l1 ++ l2).Nodup := (List.nodup_cons.mp hmid).2
  have hprevmem : 0 ≤ (p.elements_.get ⟨e, he⟩).prev_element →
      (p.elements_.get ⟨e, he⟩).prev_element.toNat ∈ l1 := by
    intro h0
    by_cases hl1 : l1 = []
    · obtain ⟨_, hp⟩ := hbase hl1
      rw [hp] at h0
      norm_num at h0
    · exact (hstep hl1).2
  have hdllyes : IsDLL p.elements_ (-1) cl.yes_head (w.yesL d) := by
    have hh := w.dll_yes d hclt
    rw [← hclv] at hh
    exact hh
  have hyhmem : 0 ≤ cl.yes_head → cl.yes_head.toNat ∈ w.yesL d :=
    fun hh => IsDLL_head_mem hdllyes hh
  have henoLd : e ∈ w.noL d := hmem
  have heyes : e ∉ w.yesL d := fun hc => noyes_disj w hclt henoLd hc
  have hlenE : p'.elements_.length = p.elements_.length := by
    rw [hE, pushFront_len, excise_len]
  have hK : p'.classes_.length = p.classes_.length := by
    rw [hC, upd_length]
  have helen : e < (excise p.elements_ (p.elements_.get ⟨e, he⟩)).length := by
    rw [excise_len]
    exact he
  -- getE is unchanged by the whole surgery outside noL d, yesL d and e
  have hframe : ∀ (L : List Nat), (∀ x ∈ L, x ∉ w.noL d) → (∀ x ∈ L, x ∉ w.yesL d) →
      ∀ x ∈ L, getE p'.elements_ (x : Int) = getE p.elements_ (x : Int) := by
    intro L hno hyes x hx
    rw [hE]
    rw [pushFront_getE_ne (fun hh heq => hyes x hx (by rw [← heq]; exact hyhmem hh))
        (fun heq => hno x hx (by rw [← heq]; exact henoLd))]
    refine excise_getE_ne (fun hh heq => hno x hx ?_) (fun hh heq => hno x hx ?_)
    · rw [← heq]
      exact hmeml1 _ (hprevmem hh)
    · rw [← heq]
      exact hmeml2 _ (hnextmem hh)
  -- the surviving no-list of class d across the pushFront writes
  have hWnod : IsDLL p'.elements_ (-1)
      (if 0 ≤ (p.elements_.get ⟨e, he⟩).prev_element then cl.no_head
       else (p.elements_.get ⟨e, he⟩).next_element) (l1 ++ l2) := by
    rw [hheads, hE]
    refine IsDLL_frame (by rw [pushFront_len]) Wex ?_
    intro x hx
    refine pushFront_getE_ne (fun hh heq => ?_) (fun heq => henotin12 (by rw [heq]; exact hx))
    have hxno : x ∈ w.noL d := by
      rcases List.mem_append.mp hx with hh' | hh'
      · exact hmeml1 _ hh'
      · exact hmeml2 _ hh'
    refine noyes_disj w hclt hxno ?_
    rw [← heq]
    exact hyhmem hh
  -- the new yes-list of class d
  have hWyesd : IsDLL p'.elements_ (-1) (e : Int) (e :: w.yesL d) := by
    rw [hE]
    refine pushFront_dll ?_ (yesL_nodup w hclt) helen ?_ _ _
    · refine IsDLL_frame (by rw [excise_len]) hdllyes ?_
      intro x hx
      refine excise_getE_ne (fun hh heq => ?_) (fun hh heq => ?_)
      · refine noyes_disj w hclt ?_ hx
        rw [← heq]
        exact hmeml1 _ (hprevmem hh)
      · refine noyes_disj w hclt ?_ hx
        rw [← heq]
        exact hmeml2 _ (hnextmem hh)
    · exact heyes
  have hgetc_eq : ∀ (hcc : d < p'.classes_.length),
      p'.classes_.get ⟨d, hcc⟩ =
        { cl with no_head := (if 0 ≤ (p.elements_.get ⟨e, he⟩).prev_element then cl.no_head
                              else (p.elements_.get ⟨e, he⟩).next_element),
                  yes_head := (e : Int), yes_size := cl.yes_size + 1 } := by
    intro hcc
    rw [List.get_of_eq hC]
    exact upd_get_nat_self _ hc0 rfl _
  have hgetc_ne : ∀ (cc : Nat), cc ≠ d → ∀ (hcc : cc < p'.classes_.length),
      p'.classes_.get ⟨cc, hcc⟩ = p.classes_.get ⟨cc, by omega⟩ := by
    intro cc hne hcc
    rw [List.get_of_eq hC]
    exact upd_get_nat_ne _ (fun hh => hne hh.2.symm) _ (by omega)
  have hsubmem : ∀ (cc : Nat) (x : Nat),
      x ∈ (if cc = d then l1 ++ l2 else w.noL cc) ++ (if cc = d then e :: w.yesL d else w.yesL cc) →
      x ∈ w.noL cc ++ w.yesL cc := by
    intro cc x hx
    by_cases hcd : cc = d
    · rw [if_pos hcd, if_pos hcd] at hx
      subst hcd
      rcases List.mem_append.mp hx with hh | hh
      · rcases List.mem_append.mp hh with hh | hh
        · exact List.mem_append.mpr (Or.inl (hmeml1 _ hh))
        · exact List.mem_append.mpr (Or.inl (hmeml2 _ hh))
      · rcases List.mem_cons.mp hh with rfl | hh
        · exact List.mem_append.mpr (Or.inl henoLd)
        · exact List.mem_append.mpr (Or.inr hh)
    · rw [if_neg hcd, if_neg hcd] at hx
      exact hx
  refine ⟨⟨(fun cc => if cc = d then l1 ++ l2 else w.noL cc),
          (fun cc => if cc = d then e :: w.yesL d else w.yesL cc),
          ?_, ?_, ?_, ?_, ?_, ?_⟩⟩
  · -- dll_no
    intro cc hcc
    beta_reduce
    by_cases hcd : cc = d
    · subst hcd
      rw [if_pos (Eq.refl d), hgetc_eq hcc]
      exact hWnod
    · rw [if_neg hcd, hgetc_ne cc hcd hcc]
      refine IsDLL_frame (by omega) (w.dll_no cc (by omega)) ?_
      refine hframe _ (fun x hx heq => hcd ?_) (fun x hx heq => hcd ?_)
      · exact w.disj cc d (by omega) hclt x (List.mem_append.mpr (Or.inl hx))
          (List.mem_append.mpr (Or.inl heq))
      · exact w.disj cc d (by omega) hclt x (List.mem_append.mpr (Or.inl hx))
          (List.mem_append.mpr (Or.inr heq))
  · -- dll_yes
    intro cc hcc
    beta_reduce
    by_cases hcd : cc = d
    · subst hcd
      rw [if_pos (Eq.refl d), hgetc_eq hcc]
      exact hWyesd
    · rw [if_neg hcd, hgetc_ne cc hcd hcc]
      refine IsDLL_frame (by omega) (w.dll_yes cc (by omega)) ?_
      refine hframe _ (fun x hx heq => hcd ?_) (fun x hx heq => hcd ?_)
      · exact w.disj cc d (by omega) hclt x (List.mem_append.mpr (Or.inr hx))
          (List.mem_append.mpr (Or.inl heq))
      · exact w.disj cc d (by omega) hclt x (List.mem_append.mpr (Or.inr hx))
          (List.mem_append.mpr (Or.inr heq))
  · -- size_eq
    intro cc hcc
    beta_reduce
    by_cases hcd : cc = d
    · subst hcd
      rw [if_pos (Eq.refl d), hgetc_eq hcc]
      have hold := w.size_eq d hclt
      rw [← hclv] at hold
      have hlensplit : (w.noL d).length = l1.length + 1 + l2.length := by
        rw [hsplit]
        simp
        omega
      show ((l1 ++ l2).length : Int) + (cl.yes_size + 1) = cl.size
      rw [hlensplit] at hold
      simp only [List.length_append]
      push_cast at hold ⊢
      omega
    · rw [if_neg hcd, hgetc_ne cc hcd hcc]
      exact w.size_eq cc (by omega)
  · -- yes_size_eq
    intro cc hcc
    beta_reduce
    by_cases hcd : cc = d
    · subst hcd
      rw [if_pos (Eq.refl d), hgetc_eq hcc]
      have hold := w.yes_size_eq d hclt
      rw [← hclv] at hold
      show ((e :: w.yesL d).length : Int) = cl.yes_size + 1
      simp only [List.length_cons]
      push_cast at hold ⊢
      omega
    · rw [if_neg hcd, hgetc_ne cc hcd hcc]
      exact w.yes_size_eq cc (by omega)
  · -- nodup_each
    intro cc hcc
    beta_reduce
    by_cases hcd : cc = d
    · subst hcd
      rw [if_pos (Eq.refl d), if_pos (Eq.refl d)]
      have hold : ((l1 ++ e :: l2) ++ w.yesL d).Nodup := by
        rw [← hsplit]
        exact w.nodup_each d hclt
      have hperm : ((l1 ++ e :: l2) ++ w.yesL d).Perm ((l1 ++ l2) ++ e :: w.yesL d) := by
        refine List.Perm.trans (List.perm_middle.append_right _) ?_
        exact List.perm_middle.symm
      exact hperm.nodup hold
    · rw [if_neg hcd, if_neg hcd]
      exact w.nodup_each cc (by omega)
  · -- disj
    intro cc cc' hcc hcc' x hx hx'
    beta_reduce at hx hx'
    exact w.disj cc cc' (by omega) (by omega) x (hsubmem cc x hx) (hsubmem cc' x hx')

/-- Under the structural invariant, the computable chase of the stored
'no' head recovers exactly the witnessed ordinary member list. -/
theorem ordinaryList_eq {p : Partition} (w : WFData p) {c : Nat}
    (hc : c < p.classes_.length) : ordinaryList p c = w.noL c := by
  have hnd := noL_nodup w hc
  have hdll := w.dll_no c hc
  have hfuel : (w.noL c).length ≤ p.elements_.length := IsDLL_length_le hdll hnd
  unfold ordinaryList
  rw [List.getD_eq_get _ _ hc]
  exact IsDLL_chase hdll _ hfuel

/-- Under the structural invariant, the computable chase of the stored
'yes' head recovers exactly the witnessed distinguished member list. -/
theorem distinguishedList_eq {p : Partition} (w : WFData p) {c : Nat}
    (hc : c < p.classes_.length) : distinguishedList p c = w.yesL c := by
  have hnd := yesL_nodup w hc
  have hdll := w.dll_yes c hc
  have hfuel : (w.yesL c).length ≤ p.elements_.length := IsDLL_length_le hdll hnd
  unfold distinguishedList
  rw [List.getD_eq_get _ _ hc]
  exact IsDLL_chase hdll _ hfuel

/-- Under the structural invariant, the sum of the stored class sizes is
exactly the number of elements linked into some class sublist. -/
theorem sumSizes_eq_assigned {p : Partition} (w : WFData p) :
    sumSizes p = (assignedCount p : Int) := by
  unfold sumSizes assignedCount
  rw [List.map_eq_map_iff.mpr (fun x hx => rfl)]
  have hmap : ∀ (n : Nat), n ≤ p.classes_.length →
      ((p.classes_.take n).map PClass.size).sum =
      ((((List.range n).map
        (fun c => (ordinaryList p c).length + (distinguishedList p c).length))).sum : Int) := by
    intro n
    induction n with
    | zero => intro _; rfl
    | succ m ih =>
      intro hm
      have hmlt : m < p.classes_.length := by omega
      rw [List.take_succ, List.range_succ]
      simp only [List.map_append, List.sum_append]
      rw [ih (by omega)]
      have hgetm : p.classes_[m]? = some (p.classes_.get ⟨m, hmlt⟩) := by
        rw [List.getElem?_eq_getElem hmlt]
        rfl
      rw [hgetm]
      simp only [Option.toList, List.map_cons, List.map_nil, List.sum_cons, List.sum_nil]
      rw [ordinaryList_eq w hmlt, distinguishedList_eq w hmlt]
      have hs := w.size_eq m hmlt
      have hy := w.yes_size_eq m hmlt
      push_cast
      push_cast at hs hy
      omega
  have hfin := hmap p.classes_.length (le_refl _)
  rw [List.take_length] at hfin
  exact hfin

/-- WF preservation by SplitOn, given that an untagged target element really
sits on the ordinary sublist of the class that owns it. -/
theorem wf_splitOn {p p' : Partition} {e : Int} (w : WFData p)
    (hmem : ∀ el, idx p.elements_ e = Except.ok el → el.yes ≠ p.yes_counter_ →
      e.toNat ∈ w.noL el.class_id.toNat)
    (h : SplitOn p e = Except.ok p') : WF p' := by
  rcases splitOn_ok_shape h with ⟨el, hel, hy, rfl⟩ | ⟨el, cl, hel, hy, hcl, hE, hC, _⟩
  · exact ⟨w⟩
  · have hmm := hmem el hel hy
    obtain ⟨he0, helt, rfl⟩ := idx_ok_elim hel
    refine wf_splitOn_core w helt hcl hmm hE ?_
    rw [Int.toNat_of_nonneg he0]
    exact hC

/-- SplitOn never changes the sum of the stored class sizes. -/
theorem sum_splitOn {p p' : Partition} {e : Int}
    (h : SplitOn p e = Except.ok p') : sumSizes p' = sumSizes p := by
  rcases splitOn_ok_shape h with ⟨el, hel, hy, rfl⟩ | ⟨el, cl, hel, hy, hcl, hE, hC, _⟩
  · rfl
  · obtain ⟨hc0, hclt, hclv⟩ := idx_ok_elim hcl
    unfold sumSizes
    rw [hC, sumSizes_upd _ hc0 hclt, ← hclv]
    show (p.classes_.map PClass.size).sum + cl.size - cl.size = _
    ring

/-- Destructuring a successful Move: the element is untagged, the source
class passes both CHECKs, and the result is literally an Add of the element
to the target class over the excised element array with the source class
record shrunk by one. -/
theorem move_ok_shape {p p' : Partition} {e c : Int}
    (h : Move p e c = Except.ok p') :
    ∃ el ocl, idx p.elements_ e = Except.ok el ∧ el.yes ≠ p.yes_counter_ ∧
      idx p.classes_ el.class_id = Except.ok ocl ∧
      0 ≤ ocl.size - 1 ∧ ocl.yes_size = 0 ∧
      (¬ 0 ≤ el.prev_element → ocl.no_head = e) ∧
      Add { p with elements_ := excise p.elements_ el,
                   classes_ := upd p.classes_ el.class_id
                     { ocl with size := ocl.size - 1,
                                no_head := (if 0 ≤ el.prev_element then ocl.no_head else el.next_element) } }
          e c = Except.ok p' := by
  rcases hel : idx p.elements_ e with err | el
  · rw [Move, hel, error_bind] at h
    exact absurd h (by simp)
  · rw [Move, hel, ok_bind] at h
    by_cases hy : el.yes = p.yes_counter_
    · rw [if_pos hy] at h
      exact absurd h (by simp [throw_eq, error_bind])
    · rw [if_neg hy] at h
      simp only [pure_bind, ok_bind, error_bind] at h
      rcases hcl : idx p.classes_ el.class_id with err | ocl <;> rw [hcl] at h
      · exact absurd h (by simp [error_bind])
      · simp only [ok_bind] at h
        by_cases hchk : ¬ (0 ≤ ocl.size - 1 ∧ ocl.yes_size = 0)
        · rw [if_pos hchk] at h
          exact absurd h (by simp [throw_eq, error_bind])
        · rw [if_neg hchk] at h
          push_neg at hchk
          refine ⟨el, ocl, rfl, hy, hcl, hchk.1, hchk.2, ?_⟩
          by_cases hprev : 0 ≤ el.prev_element
          · rw [if_pos hprev] at h
            rcases hpe : idx p.elements_ el.prev_element with err | pe <;> rw [hpe] at h
            · exact absurd h (by simp [error_bind])
            · simp only [ok_bind] at h
              have hex1 : upd p.elements_ el.prev_element
                  { pe with next_element := el.next_element } = excise1 p.elements_ el := by
                unfold excise1
                rw [if_pos hprev, ← idx_ok_getE hpe]
              rw [hex1] at h
              by_cases hnext : 0 ≤ el.next_element
              · rw [if_pos hnext] at h
                rcases hne : idx (excise1 p.elements_ el) el.next_element with err | ne <;>
                  rw [hne] at h
                · exact absurd h (by simp [error_bind])
                · simp only [ok_bind] at h
                  have hex2 : upd (excise1 p.elements_ el) el.next_element
                      { ne with prev_element := el.prev_element } = excise p.elements_ el := by
                    unfold excise
                    rw [if_pos hnext, ← idx_ok_getE hne]
                  rw [hex2] at h
                  refine ⟨fun hp => absurd hprev hp, ?_⟩
                  rw [if_pos hprev]
                  exact h
              · rw [if_neg hnext] at h
                have hex2 : excise1 p.elements_ el = excise p.elements_ el := by
                  unfold excise
                  rw [if_neg hnext]
                rw [hex2] at h
                refine ⟨fun hp => absurd hprev hp, ?_⟩
                rw [if_pos hprev]
                exact h
          · rw [if_neg hprev] at h
            by_cases hnh : ocl.no_head ≠ e
            · rw [if_pos hnh] at h
              exact absurd h (by simp [throw_eq, error_bind])
            · rw [if_neg hnh] at h
              push_neg at hnh
              have hex1 : p.elements_ = excise1 p.elements_ el := by
                unfold excise1
                rw [if_neg hprev]
              rw [hex1] at h
              by_cases hnext : 0 ≤ el.next_element
              · rw [if_pos hnext] at h
                rcases hne : idx (excise1 p.elements_ el) el.next_element with err | ne <;>
                  rw [hne] at h
                · exact absurd h (by simp [error_bind])
                · simp only [ok_bind] at h
                  have hex2 : upd (excise1 p.elements_ el) el.next_element
                      { ne with prev_element := el.prev_element } = excise p.elements_ el := by
                    unfold excise
                    rw [if_pos hnext, ← idx_ok_getE hne]
                  rw [hex2] at h
                  refine ⟨fun _ => hnh, ?_⟩
                  rw [if_neg hprev]
                  exact h
              · rw [if_neg hnext] at h
                have hex2 : excise1 p.elements_ el = excise p.elements_ el := by
                  unfold excise
                  rw [if_neg hnext]
                rw [hex2] at h
                refine ⟨fun _ => hnh, ?_⟩
                rw [if_neg hprev]
                exact h

/-- WF data for the intermediate state of Move after the element has been
spliced out of its source class but before it is re-added: all lists remain
well formed and the spliced element belongs to no class sublist. -/
theorem wf_excise_core {p : Partition} (pm : Partition) {e : Nat} {ocl : PClass}
    (w : WFData p) (he : e < p.elements_.length)
    (hcl : idx p.classes_ (p.elements_.get ⟨e, he⟩).class_id = Except.ok ocl)
    (hmem : e ∈ w.noL (p.elements_.get ⟨e, he⟩).class_id.toNat)
    (hE : pm.elements_ = excise p.elements_ (p.elements_.get ⟨e, he⟩))
    (hC : pm.classes_ = upd p.classes_ (p.elements_.get ⟨e, he⟩).class_id
      { ocl with size := ocl.size - 1,
                 no_head := (if 0 ≤ (p.elements_.get ⟨e, he⟩).prev_element then ocl.no_head
                             else (p.elements_.get ⟨e, he⟩).next_element) }) :
    ∃ wm : WFData pm, ∀ cc, cc < pm.classes_.length → e ∉ wm.noL cc ∧ e ∉ wm.yesL cc := by
  obtain ⟨hc0, hclt, hclv⟩ := idx_ok_elim hcl
  set d := (p.elements_.get ⟨e, he⟩).class_id.toNat with hd
  obtain ⟨l1, l2, hsplit⟩ := List.append_of_mem hmem
  have hndd : (w.noL d).Nodup := noL_nodup w hclt
  have hnd12 : (l1 ++ e :: l2).Nodup := hsplit ▸ hndd
  have hdll : IsDLL p.elements_ (-1) ocl.no_head (l1 ++ e :: l2) := by
    rw [← hsplit]
    have hh := w.dll_no d hclt
    rw [← hclv] at hh
    exact hh
  obtain ⟨he', hbase, hstep, hnextmem, Wex⟩ :=
    IsDLL_excise l1 hdll hnd12 (Or.inl (by norm_num))
  have hee : p.elements_.get ⟨e, he'⟩ = p.elements_.get ⟨e, he⟩ := rfl
  rw [hee] at hbase hstep hnextmem Wex
  have hheads : (if 0 ≤ (p.elements_.get ⟨e, he⟩).prev_element then ocl.no_head
      else (p.elements_.get ⟨e, he⟩).next_element) =
      (if l1 = [] then (p.elements_.get ⟨e, he⟩).next_element else ocl.no_head) := by
    by_cases hl1 : l1 = []
    · obtain ⟨_, hprev⟩ := hbase hl1
      rw [if_pos hl1, if_neg (by rw [hprev]; norm_num)]
    · obtain ⟨hp0, _⟩ := hstep hl1
      rw [if_neg hl1, if_pos hp0]
  have hmeml1 : ∀ x ∈ l1, x ∈ w.noL d := fun x hx => by
    rw [hsplit]
    exact List.mem_append.mpr (Or.inl hx)
  have hmeml2 : ∀ x ∈ l2, x ∈ w.noL d := fun x hx => by
    rw [hsplit]
    exact List.mem_append.mpr (Or.inr (List.mem_cons_of_mem _ hx))
  have hmid := List.nodup_middle.mp hnd12
  have henotin12 : e ∉ l1 ++ l2 := (List.nodup_cons.mp hmid).1
  have hnd12' : (l1 ++ l2).Nodup := (List.nodup_cons.mp hmid).2
  have hprevmem : 0 ≤ (p.elements_.get ⟨e, he⟩).prev_element →
      (p.elements_.get ⟨e, he⟩).prev_element.toNat ∈ l1 := by
    intro h0
    by_cases hl1 : l1 = []
    · obtain ⟨_, hp⟩ := hbase hl1
      rw [hp] at h0
      norm_num at h0
    · exact (hstep hl1).2
  have henoLd : e ∈ w.noL d := hmem
  have heyes : e ∉ w.yesL d := fun hc => noyes_disj w hclt henoLd hc
  have hlenE : pm.elements_.length = p.elements_.length := by
    rw [hE, excise_len]
  have hK : pm.classes_.length = p.classes_.length := by
    rw [hC, upd_length]
  have hframe : ∀ (L : List Nat), (∀ x ∈ L, x ∉ w.noL d) →
      ∀ x ∈ L, getE pm.elements_ (x : Int) = getE p.elements_ (x : Int) := by
    intro L hno x hx
    rw [hE]
    refine excise_getE_ne (fun hh heq => hno x hx ?_) (fun hh heq => hno x hx ?_)
    · rw [← heq]
      exact hmeml1 _ (hprevmem hh)
    · rw [← heq]
      exact hmeml2 _ (hnextmem hh)
  have hWnod : IsDLL pm.elements_ (-1)
      (if 0 ≤ (p.elements_.get ⟨e, he⟩).prev_element then ocl.no_head
       else (p.elements_.get ⟨e, he⟩).next_element) (l1 ++ l2) := by
    rw [hheads, hE]
    exact Wex
  have hWyesd : IsDLL pm.elements_ (-1) ocl.yes_head (w.yesL d) := by
    have hdy := w.dll_yes d hclt
    rw [← hclv] at hdy
    refine IsDLL_frame hlenE hdy ?_
    refine hframe _ ?_
    intro x hx hxno
    exact noyes_disj w hclt hxno hx
  have hgetc_eq : ∀ (hcc : d < pm.classes_.length),
      pm.classes_.get ⟨d, hcc⟩ =
        { ocl with size := ocl.size - 1,
                   no_head := (if 0 ≤ (p.elements_.get ⟨e, he⟩).prev_element then ocl.no_head
                               else (p.elements_.get ⟨e, he⟩).next_element) } := by
    intro hcc
    rw [List.get_of_eq hC]
    exact upd_get_nat_self _ hc0 rfl _
  have hgetc_ne : ∀ (cc : Nat), cc ≠ d → ∀ (hcc : cc < pm.classes_.length),
      pm.classes_.get ⟨cc, hcc⟩ = p.classes_.get ⟨cc, by omega⟩ := by
    intro cc hne hcc
    rw [List.get_of_eq hC]
    exact upd_get_nat_ne _ (fun hh => hne hh.2.symm) _ (by omega)
  have hsubmem : ∀ (cc : Nat) (x : Nat),
      x ∈ (if cc = d then l1 ++ l2 else w.noL cc) ++ w.yesL cc →
      x ∈ w.noL cc ++ w.yesL cc := by
    intro cc x hx
    by_cases hcd : cc = d
    · rw [if_pos hcd] at hx
      subst hcd
      rcases List.mem_append.mp hx with hh | hh
      · rcases List.mem_append.mp hh with hh | hh
        · exact List.mem_append.mpr (Or.inl (hmeml1 _ hh))
        · exact List.mem_append.mpr (Or.inl (hmeml2 _ hh))
      · exact List.mem_append.mpr (Or.inr hh)
    · rw [if_neg hcd] at hx
      exact hx
  refine ⟨⟨(fun cc => if cc = d then l1 ++ l2 else w.noL cc), w.yesL,
          ?_, ?_, ?_, ?_, ?_, ?_⟩, ?_⟩
  · -- dll_no
    intro cc hcc
    beta_reduce
    by_cases hcd : cc = d
    · subst hcd
      rw [if_pos (Eq.refl d), hgetc_eq hcc]
      exact hWnod
    · rw [if_neg hcd, hgetc_ne cc hcd hcc]
      refine IsDLL_frame hlenE (w.dll_no cc (by omega)) ?_
      refine hframe _ (fun x hx heq => hcd ?_)
      exact w.disj cc d (by omega) hclt x (List.mem_append.mpr (Or.inl hx))
        (List.mem_append.mpr (Or.inl heq))
  · -- dll_yes
    intro cc hcc
    by_cases hcd : cc = d
    · subst hcd
      rw [hgetc_eq hcc]
      exact hWyesd
    · rw [hgetc_ne cc hcd hcc]
      refine IsDLL_frame hlenE (w.dll_yes cc (by omega)) ?_
      refine hframe _ (fun x hx heq => hcd ?_)
      exact w.disj cc d (by omega) hclt x (List.mem_append.mpr (Or.inr hx))
        (List.mem_append.mpr (Or.inl heq))
  · -- size_eq
    intro cc hcc
    beta_reduce
    by_cases hcd : cc = d
    · subst hcd
      rw [if_pos (Eq.refl d), hgetc_eq hcc]
      have hold := w.size_eq d hclt
      rw [← hclv] at hold
      have hlensplit : (w.noL d).length = l1.length + 1 + l2.length := by
        rw [hsplit]
        simp
        omega
      show ((l1 ++ l2).length : Int) + ocl.yes_size = ocl.size - 1
      rw [hlensplit] at hold
      simp only [List.length_append]
      push_cast at hold ⊢
      omega
    · rw [if_neg hcd, hgetc_ne cc hcd hcc]
      exact w.size_eq cc (by omega)
  · -- yes_size_eq
    intro cc hcc
    by_cases hcd : cc = d
    · subst hcd
      rw [hgetc_eq hcc]
      have hold := w.yes_size_eq d hclt
      rw [← hclv] at hold
      exact hold
    · rw [hgetc_ne cc hcd hcc]
      exact w.yes_size_eq cc (by omega)
  · -- nodup_each
    intro cc hcc
    beta_reduce
    by_cases hcd : cc = d
    · subst hcd
      rw [if_pos (Eq.refl d)]
      have hold : ((l1 ++ e :: l2) ++ w.yesL d).Nodup := by
        rw [← hsplit]
        exact w.nodup_each d hclt
      have hperm : ((l1 ++ e :: l2) ++ w.yesL d).Perm (e :: ((l1 ++ l2) ++ w.yesL d)) :=
        List.perm_middle.append_right _
      exact (List.nodup_cons.mp (hperm.nodup hold)).2
    · rw [if_neg hcd]
      exact w.nodup_each cc (by omega)
  · -- disj
    intro cc cc' hcc hcc' x hx hx'
    beta_reduce at hx hx'
    exact w.disj cc cc' (by omega) (by omega) x (hsubmem cc x hx) (hsubmem cc' x hx')
  · -- the spliced element now belongs to no sublist
    intro cc hcc
    show e ∉ (if cc = d then l1 ++ l2 else w.noL cc) ∧ e ∉ w.yesL cc
    constructor
    · by_cases hcd : cc = d
      · rw [if_pos hcd]
        exact henotin12
      · rw [if_neg hcd]
        intro hein
        exact hcd (w.disj cc d (by omega) hclt e (List.mem_append.mpr (Or.inl hein))
          (List.mem_append.mpr (Or.inl henoLd)))
    · by_cases hcd : cc = d
      · rw [hcd]
        exact heyes
      · intro hein
        exact hcd (w.disj cc d (by omega) hclt e (List.mem_append.mpr (Or.inr hein))
          (List.mem_append.mpr (Or.inl henoLd)))

/-- WF preservation by Move, given that the moved element really sits on the
ordinary sublist of the class that owns it. -/
theorem wf_move {p p' : Partition} {e c : Int} (w : WFData p)
    (hmem : ∀ el, idx p.elements_ e = Except.ok el → e.toNat ∈ w.noL el.class_id.toNat)
    (h : Move p e c = Except.ok p') : WF p' := by
  obtain ⟨el, ocl, hel, hy, hcl, hsz, hys, hnh, hadd⟩ := move_ok_shape h
  have hmm := hmem el hel
  obtain ⟨he0, helt, rfl⟩ := idx_ok_elim hel
  obtain ⟨wm, hun⟩ := wf_excise_core
    { p with
      elements_ := excise p.elements_ (p.elements_.get ⟨e.toNat, helt⟩),
      classes_ := upd p.classes_ (p.elements_.get ⟨e.toNat, helt⟩).class_id
        { ocl with size := ocl.size - 1,
                   no_head := (if 0 ≤ (p.elements_.get ⟨e.toNat, helt⟩).prev_element
                               then ocl.no_head
                               else (p.elements_.get ⟨e.toNat, helt⟩).next_element) } }
    w helt hcl hmm rfl rfl
  exact wf_add wm hun hadd

/-- Move never changes the sum of the stored class sizes: the source class
shrinks by one and the Add grows the target class by one. -/
theorem sum_move {p p' : Partition} {e c : Int}
    (h : Move p e c = Except.ok p') : sumSizes p' = sumSizes p := by
  obtain ⟨el, ocl, hel, hy, hcl, hsz, hys, hnh, hadd⟩ := move_ok_shape h
  obtain ⟨hc0, hclt, hclv⟩ := idx_ok_elim hcl
  have hmid := sum_add hadd
  rw [hmid]
  show (sumSizes { p with
      elements_ := excise p.elements_ el,
      classes_ := upd p.classes_ el.class_id
        { ocl with size := ocl.size - 1,
                   no_head := (if 0 ≤ el.prev_element then ocl.no_head
                               else el.next_element) } }) + 1 = sumSizes p
  unfold sumSizes
  rw [sumSizes_upd _ hc0 hclt, ← hclv]
  show (p.classes_.map PClass.size).sum + (ocl.size - 1) - ocl.size + 1 = _
  ring

/-- Destructuring a successful SplitRefine: either the no-split branch
(empty ordinary subset, the distinguished list is relabelled in place as the
ordinary list of the same class record), or the split branch (a fresh class
is appended and receives the smaller sublist, whose members are relabelled). -/
theorem splitRefine_ok_shape {p : Partition} {c : Int} {r : Int × Partition}
    (h : SplitRefine p c = Except.ok r) :
    ∃ cl, idx p.classes_ c = Except.ok cl ∧
      r.2.visited_classes_ = p.visited_classes_ ∧
      r.2.yes_counter_ = p.yes_counter_ ∧
      ((cl.size - cl.yes_size = 0 ∧ cl.no_head < 0 ∧ r.1 = -1 ∧
        r.2.elements_ = p.elements_ ∧
        r.2.classes_ = upd p.classes_ c
          { cl with no_head := cl.yes_head, yes_head := -1, yes_size := 0 }) ∨
       (cl.size - cl.yes_size ≠ 0 ∧ r.1 = (p.classes_.length : Int) ∧
        ∃ ncl ocl,
          ((cl.size - cl.yes_size < cl.yes_size ∧
            ncl = { PClass.init with no_head := cl.no_head, size := cl.size - cl.yes_size } ∧
            ocl = { cl with no_head := cl.yes_head, yes_head := -1,
                            size := cl.yes_size, yes_size := 0 }) ∨
           (¬ cl.size - cl.yes_size < cl.yes_size ∧
            ncl = { PClass.init with size := cl.yes_size, no_head := cl.yes_head } ∧
            ocl = { cl with size := cl.size - cl.yes_size, yes_size := 0, yes_head := -1 })) ∧
          r.2.classes_ = upd (upd (p.classes_ ++ [PClass.init]) c ocl)
            ((p.classes_.length : Int)) ncl ∧
          relabel (p.classes_.length : Int) p.elements_.length p.elements_ ncl.no_head =
            Except.ok r.2.elements_)) := by
  rcases hcl : idx p.classes_ c with err | cl
  · rw [SplitRefine, hcl, error_bind] at h
    exact absurd h (by simp)
  · simp only [SplitRefine, hcl, ok_bind] at h
    by_cases hz : cl.size - cl.yes_size = 0
    · rw [if_pos hz] at h
      by_cases hnh : ¬ cl.no_head < 0
      · rw [if_pos hnh] at h
        exact absurd h (by simp [throw_eq, error_bind])
      · rw [if_neg hnh] at h
        push_neg at hnh
        simp only [ok_bind, pure_bind, pure, Except.pure, Except.ok.injEq] at h
        subst h
        exact ⟨cl, rfl, rfl, rfl, Or.inl ⟨hz, hnh, rfl, rfl, rfl⟩⟩
    · rw [if_neg hz] at h
      by_cases hlt : cl.size - cl.yes_size < cl.yes_size
      · rw [if_pos hlt] at h
        rcases hrel : relabel (p.classes_.length : Int) p.elements_.length p.elements_
            cl.no_head with err | es' <;>
          simp only [hrel, ok_bind, error_bind] at h
        · exact absurd h (by simp)
        · simp only [pure, Except.pure, Except.ok.injEq] at h
          subst h
          refine ⟨cl, rfl, rfl, rfl, Or.inr ⟨hz, rfl, ?_⟩⟩
          exact ⟨_, _, Or.inl ⟨hlt, rfl, rfl⟩, rfl, hrel⟩
      · rw [if_neg hlt] at h
        rcases hrel : relabel (p.classes_.length : Int) p.elements_.length p.elements_
            cl.yes_head with err | es' <;>
          simp only [hrel, ok_bind, error_bind] at h
        · exact absurd h (by simp)
        · simp only [pure, Except.pure, Except.ok.injEq] at h
          subst h
          refine ⟨cl, rfl, rfl, rfl, Or.inr ⟨hz, rfl, ?_⟩⟩
          exact ⟨_, _, Or.inr ⟨hlt, rfl, rfl⟩, rfl, hrel⟩

/-- SplitRefine never changes the sum of the stored class sizes: the
no-split branch keeps the size field, and the split branch divides the old
size between the retained and the new class. -/
theorem sum_splitRefine {p : Partition} {c : Int} {r : Int × Partition}
    (h : SplitRefine p c = Except.ok r) : sumSizes r.2 = sumSizes p := by
  obtain ⟨cl, hcl, hv, hy2, hbr⟩ := splitRefine_ok_shape h
  obtain ⟨hc0, hclt, hclv⟩ := idx_ok_elim hcl
  rcases hbr with ⟨hz, hnh, h1, hE, hC⟩ | ⟨hz, h1, ncl, ocl, hcase, hC, hrel⟩
  · unfold sumSizes
    rw [hC, sumSizes_upd _ hc0 hclt, ← hclv]
    show (p.classes_.map PClass.size).sum + cl.size - cl.size = _
    ring
  · have hK0 : (0 : Int) ≤ (p.classes_.length : Int) := by positivity
    have hKt : ((p.classes_.length : Int)).toNat = p.classes_.length := by simp
    have hclt2 : c.toNat < (p.classes_ ++ [PClass.init]).length := by
      simp only [List.length_append, List.length_cons, List.length_nil]
      omega
    have hKlt : ((p.classes_.length : Int)).toNat <
        (upd (p.classes_ ++ [PClass.init]) c ocl).length := by
      rw [upd_length]
      simp only [hKt, List.length_append, List.length_cons, List.length_nil]
      omega
    unfold sumSizes
    rw [hC, sumSizes_upd ncl hK0 hKlt, sumSizes_upd ocl hc0 hclt2]
    have hgetK : (upd (p.classes_ ++ [PClass.init]) c ocl).get
        ⟨((p.classes_.length : Int)).toNat, hKlt⟩ = PClass.init := by
      rw [upd_get_nat_ne ocl (fun hh => absurd hh.2 (by rw [hKt]; omega)) hKlt
        (by rw [hKt]; simp only [List.length_append, List.length_cons, List.length_nil]; omega)]
      simp only [List.get_eq_getElem, hKt]
      rw [List.getElem_concat_length]
      rfl
    have hgetc : (p.classes_ ++ [PClass.init]).get ⟨c.toNat, hclt2⟩ = cl := by
      simp only [List.get_eq_getElem]
      rw [List.getElem_append_left hclt]
      rw [hclv]
      rfl
    rw [hgetK, hgetc, sumSizes_append]
    have hsizes : ncl.size + ocl.size = cl.size := by
      rcases hcase with ⟨hlt, hn, ho⟩ | ⟨hlt, hn, ho⟩ <;> subst hn <;> subst ho <;>
        dsimp only [PClass.init] <;> ring
    have hinit : PClass.init.size = 0 := rfl
    rw [hinit]
    omega

/-- WF core for the split branch of SplitRefine: the freshly appended class
receives list A (relabelled in the element array), the old class keeps list
B, and {A, B} are the two sublists of the old class in some order. -/
theorem wf_splitRefine_core {p q : Partition} {c : Int} {ncl ocl : PClass}
    (w : WFData p) (hc0 : 0 ≤ c) (hclt : c.toNat < p.classes_.length)
    (hC : q.classes_ = upd (upd (p.classes_ ++ [PClass.init]) c ocl)
      ((p.classes_.length : Int)) ncl)
    (hrel : relabel (p.classes_.length : Int) p.elements_.length p.elements_ ncl.no_head =
      Except.ok q.elements_)
    {A B : List Nat}
    (hA : IsDLL p.elements_ (-1) ncl.no_head A)
    (hB : IsDLL p.elements_ (-1) ocl.no_head B)
    (hcase2 : (A = w.noL c.toNat ∧ B = w.yesL c.toNat) ∨
              (A = w.yesL c.toNat ∧ B = w.noL c.toNat))
    (hsizeA : (A.length : Int) = ncl.size)
    (hsizeB : (B.length : Int) = ocl.size)
    (hyA : ncl.yes_size = 0) (hyhA : ncl.yes_head = -1)
    (hyB : ocl.yes_size = 0) (hyhB : ocl.yes_head = -1) :
    WF q := by
  set d := c.toNat with hdd
  have hKlen : q.classes_.length = p.classes_.length + 1 := by
    rw [hC, upd_length, upd_length]
    simp only [List.length_append, List.length_cons, List.length_nil]
  have hAnd : A.Nodup := by
    rcases hcase2 with ⟨rfl, _⟩ | ⟨rfl, _⟩
    · exact noL_nodup w hclt
    · exact yesL_nodup w hclt
  have hBnd : B.Nodup := by
    rcases hcase2 with ⟨_, rfl⟩ | ⟨_, rfl⟩
    · exact yesL_nodup w hclt
    · exact noL_nodup w hclt
  have hABdisj : ∀ x, x ∈ A → x ∈ B → False := by
    rcases hcase2 with ⟨rfl, rfl⟩ | ⟨rfl, rfl⟩
    · exact fun x h1 h2 => noyes_disj w hclt h1 h2
    · exact fun x h1 h2 => noyes_disj w hclt h2 h1
  have hAmem : ∀ x ∈ A, x ∈ w.noL d ++ w.yesL d := by
    rcases hcase2 with ⟨rfl, _⟩ | ⟨rfl, _⟩
    · exact fun x hx => List.mem_append.mpr (Or.inl hx)
    · exact fun x hx => List.mem_append.mpr (Or.inr hx)
  have hBmem : ∀ x ∈ B, x ∈ w.noL d ++ w.yesL d := by
    rcases hcase2 with ⟨_, rfl⟩ | ⟨_, rfl⟩
    · exact fun x hx => List.mem_append.mpr (Or.inr hx)
    · exact fun x hx => List.mem_append.mpr (Or.inl hx)
  obtain ⟨es', hok, hlen', hget⟩ := relabel_spec (p.classes_.length : Int) A hA hAnd
    p.elements_.length (IsDLL_length_le hA hAnd)
  rw [hok] at hrel
  have hes : es' = q.elements_ := Except.ok.inj hrel
  rw [hes] at hlen' hget
  have hlenE : q.elements_.length = p.elements_.length := hlen'
  have hsame : ∀ x : Nat, x < p.elements_.length →
      (getE q.elements_ (x : Int)).next_element = (getE p.elements_ (x : Int)).next_element ∧
      (getE q.elements_ (x : Int)).prev_element = (getE p.elements_ (x : Int)).prev_element := by
    intro x _
    rw [hget x]
    constructor <;> (split <;> rfl)
  have hDLL : ∀ {pv hh : Int} {l : List Nat},
      IsDLL p.elements_ pv hh l → IsDLL q.elements_ pv hh l :=
    fun W => IsDLL_links_frame hlenE hsame W
  have hgetK : ∀ (hcc : p.classes_.length < q.classes_.length),
      q.classes_.get ⟨p.classes_.length, hcc⟩ = ncl := by
    intro hcc
    rw [List.get_of_eq hC]
    exact upd_get_nat_self ncl (by positivity) (by simp) _
  have hgetd : ∀ (hcc : d < q.classes_.length),
      q.classes_.get ⟨d, hcc⟩ = ocl := by
    intro hcc
    rw [List.get_of_eq hC]
    refine Eq.trans (upd_get_nat_ne ncl (fun hh => ?_) _ ?_) ?_
    · have hh2 := hh.2
      simp only [Int.toNat_natCast] at hh2
      omega
    · rw [upd_length]
      simp only [List.length_append, List.length_cons, List.length_nil]
      omega
    · exact upd_get_nat_self ocl hc0 rfl _
  have hget_ne : ∀ (cc : Nat), cc ≠ p.classes_.length → cc ≠ d →
      ∀ (hcc : cc < q.classes_.length) (hb : cc < p.classes_.length),
      q.classes_.get ⟨cc, hcc⟩ = p.classes_.get ⟨cc, hb⟩ := by
    intro cc h1 h2 hcc hb
    rw [List.get_of_eq hC]
    refine Eq.trans (upd_get_nat_ne ncl (fun hh => ?_) _ ?_)
      (Eq.trans (upd_get_nat_ne ocl (fun hh => ?_) _ ?_) ?_)
    · have hh2 := hh.2
      simp only [Int.toNat_natCast] at hh2
      exact h1 hh2.symm
    · rw [upd_length]
      simp only [List.length_append, List.length_cons, List.length_nil]
      omega
    · exact h2 hh.2.symm
    · simp only [List.length_append, List.length_cons, List.length_nil]
      omega
    · simp only [List.get_eq_getElem]
      rw [List.getElem_append_left hb]
  have hchar : ∀ (cc : Nat) (x : Nat),
      x ∈ ((if cc = p.classes_.length then A else if cc = d then B else w.noL cc) ++
           (if cc = p.classes_.length then [] else if cc = d then [] else w.yesL cc)) →
      (cc = p.classes_.length ∧ x ∈ A) ∨ (cc = d ∧ x ∈ B) ∨
      (cc ≠ p.classes_.length ∧ cc ≠ d ∧ x ∈ w.noL cc ++ w.yesL cc) := by
    intro cc x hx
    by_cases h1 : cc = p.classes_.length
    · rw [if_pos h1, if_pos h1, List.append_nil] at hx
      exact Or.inl ⟨h1, hx⟩
    · rw [if_neg h1, if_neg h1] at hx
      by_cases h2 : cc = d
      · rw [if_pos h2, if_pos h2, List.append_nil] at hx
        exact Or.inr (Or.inl ⟨h2, hx⟩)
      · rw [if_neg h2, if_neg h2] at hx
        exact Or.inr (Or.inr ⟨h1, h2, hx⟩)
  refine ⟨⟨(fun cc => if cc = p.classes_.length then A else if cc = d then B else w.noL cc),
          (fun cc => if cc = p.classes_.length then [] else if cc = d then [] else w.yesL cc),
          ?_, ?_, ?_, ?_, ?_, ?_⟩⟩
  · -- dll_no
    intro cc hcc
    beta_reduce
    by_cases h1 : cc = p.classes_.length
    · subst h1
      rw [if_pos (Eq.refl p.classes_.length), hgetK hcc]
      exact hDLL hA
    · by_cases h2 : cc = d
      · subst h2
        rw [if_neg h1, if_pos (Eq.refl d), hgetd hcc]
        exact hDLL hB
      · rw [if_neg h1, if_neg h2, hget_ne cc h1 h2 hcc (by omega)]
        exact hDLL (w.dll_no cc (by omega))
  · -- dll_yes
    intro cc hcc
    beta_reduce
    by_cases h1 : cc = p.classes_.length
    · subst h1
      rw [if_pos (Eq.refl p.classes_.length), hgetK hcc, hyhA]
      exact .nil (by norm_num)
    · by_cases h2 : cc = d
      · subst h2
        rw [if_neg h1, if_pos (Eq.refl d), hgetd hcc, hyhB]
        exact .nil (by norm_num)
      · rw [if_neg h1, if_neg h2, hget_ne cc h1 h2 hcc (by omega)]
        exact hDLL (w.dll_yes cc (by omega))
  · -- size_eq
    intro cc hcc
    beta_reduce
    by_cases h1 : cc = p.classes_.length
    · subst h1
      rw [if_pos (Eq.refl p.classes_.length), hgetK hcc, hyA, ← hsizeA]
      ring
    · by_cases h2 : cc = d
      · subst h2
        rw [if_neg h1, if_pos (Eq.refl d), hgetd hcc, hyB, ← hsizeB]
        ring
      · rw [if_neg h1, if_neg h2, hget_ne cc h1 h2 hcc (by omega)]
        exact w.size_eq cc (by omega)
  · -- yes_size_eq
    intro cc hcc
    beta_reduce
    by_cases h1 : cc = p.classes_.length
    · subst h1
      rw [if_pos (Eq.refl p.classes_.length), hgetK hcc, hyA]
      rfl
    · by_cases h2 : cc = d
      · subst h2
        rw [if_neg h1, if_pos (Eq.refl d), hgetd hcc, hyB]
        rfl
      · rw [if_neg h1, if_neg h2, hget_ne cc h1 h2 hcc (by omega)]
        exact w.yes_size_eq cc (by omega)
  · -- nodup_each
    intro cc hcc
    beta_reduce
    by_cases h1 : cc = p.classes_.length
    · rw [if_pos h1, if_pos h1, List.append_nil]
      exact hAnd
    · by_cases h2 : cc = d
      · rw [if_neg h1, if_neg h1, if_pos h2, if_pos h2, List.append_nil]
        exact hBnd
      · rw [if_neg h1, if_neg h1, if_neg h2, if_neg h2]
        exact w.nodup_each cc (by omega)
  · -- disj
    intro cc cc' hcc hcc' x hx hx'
    beta_reduce at hx hx'
    rcases hchar cc x hx with ⟨he1, hm1⟩ | ⟨he1, hm1⟩ | ⟨hn1, hn1', hm1⟩ <;>
      rcases hchar cc' x hx' with ⟨he2, hm2⟩ | ⟨he2, hm2⟩ | ⟨hn2, hn2', hm2⟩
    · rw [he1, he2]
    · exact (hABdisj x hm1 hm2).elim
    · exact absurd (w.disj cc' d (by omega) hclt x hm2 (hAmem x hm1)) hn2'
    · exact (hABdisj x hm2 hm1).elim
    · rw [he1, he2]
    · exact absurd (w.disj cc' d (by omega) hclt x hm2 (hBmem x hm1)) hn2'
    · exact absurd (w.disj cc d (by omega) hclt x hm1 (hAmem x hm2)) hn1'
    · exact absurd (w.disj cc d (by omega) hclt x hm1 (hBmem x hm2)) hn1'
    · exact w.disj cc cc' (by omega) (by omega) x hm1 hm2

/-- WF preservation by SplitRefine: the no-split branch swaps the
distinguished list into the ordinary slot of the same class; the split
branch moves one of the two sublists into the freshly appended class and
relabels its members. -/
theorem wf_splitRefine {p : Partition} {c : Int} {r : Int × Partition}
    (w : WFData p) (h : SplitRefine p c = Except.ok r) : WF r.2 := by
  obtain ⟨cl, hcl, hv, hy2, hbr⟩ := splitRefine_ok_shape h
  obtain ⟨hc0, hclt, hclv⟩ := idx_ok_elim hcl
  set d := c.toNat with hdd
  rcases hbr with ⟨hz, hnh, h1, hE, hC⟩ | ⟨hz, h1, ncl, ocl, hcase, hC, hrel⟩
  · -- no-split branch: the yes list becomes the no list of the same class
    have hK : r.2.classes_.length = p.classes_.length := by
      rw [hC, upd_length]
    have hlenE : r.2.elements_.length = p.elements_.length := by
      rw [hE]
    have hnoLnil : w.noL d = [] := by
      have hs := w.size_eq d hclt
      have hy := w.yes_size_eq d hclt
      rw [← hclv] at hs hy
      have : (w.noL d).length = 0 := by omega
      exact List.length_eq_zero.mp this
    have hgetc_eq : ∀ (hcc : d < r.2.classes_.length),
        r.2.classes_.get ⟨d, hcc⟩ =
          { cl with no_head := cl.yes_head, yes_head := -1, yes_size := 0 } := by
      intro hcc
      rw [List.get_of_eq hC]
      exact upd_get_nat_self _ hc0 rfl _
    have hgetc_ne : ∀ (cc : Nat), cc ≠ d → ∀ (hcc : cc < r.2.classes_.length),
        r.2.classes_.get ⟨cc, hcc⟩ = p.classes_.get ⟨cc, by omega⟩ := by
      intro cc hne hcc
      rw [List.get_of_eq hC]
      exact upd_get_nat_ne _ (fun hh => hne hh.2.symm) _ (by omega)
    have hsubmem : ∀ (cc : Nat) (x : Nat),
        x ∈ (if cc = d then w.yesL d else w.noL cc) ++ (if cc = d then [] else w.yesL cc) →
        x ∈ w.noL cc ++ w.yesL cc := by
      intro cc x hx
      by_cases hcd : cc = d
      · rw [if_pos hcd, if_pos hcd] at hx
        subst hcd
        rcases List.mem_append.mp hx with hh | hh
        · exact List.mem_append.mpr (Or.inr hh)
        · cases hh
      · rw [if_neg hcd, if_neg hcd] at hx
        exact hx
    refine ⟨⟨(fun cc => if cc = d then w.yesL d else w.noL cc),
            (fun cc => if cc = d then [] else w.yesL cc),
            ?_, ?_, ?_, ?_, ?_, ?_⟩⟩
    · -- dll_no
      intro cc hcc
      beta_reduce
      by_cases hcd : cc = d
      · subst hcd
        rw [if_pos (Eq.refl d), hgetc_eq hcc, hE]
        show IsDLL p.elements_ (-1) cl.yes_head (w.yesL d)
        have hh := w.dll_yes d hclt
        rw [← hclv] at hh
        exact hh
      · rw [if_neg hcd, hgetc_ne cc hcd hcc, hE]
        exact w.dll_no cc (by omega)
    · -- dll_yes
      intro cc hcc
      beta_reduce
      by_cases hcd : cc = d
      · subst hcd
        rw [if_pos (Eq.refl d), hgetc_eq hcc]
        exact .nil (by norm_num)
      · rw [if_neg hcd, hgetc_ne cc hcd hcc, hE]
        exact w.dll_yes cc (by omega)
    · -- size_eq
      intro cc hcc
      beta_reduce
      by_cases hcd : cc = d
      · subst hcd
        rw [if_pos (Eq.refl d), hgetc_eq hcc]
        have hy := w.yes_size_eq d hclt
        rw [← hclv] at hy
        show ((w.yesL d).length : Int) + (0 : Int) = cl.size
        omega
      · rw [if_neg hcd, hgetc_ne cc hcd hcc]
        exact w.size_eq cc (by omega)
    · -- yes_size_eq
      intro cc hcc
      beta_reduce
      by_cases hcd : cc = d
      · subst hcd
        rw [if_pos (Eq.refl d), hgetc_eq hcc]
        rfl
      · rw [if_neg hcd, hgetc_ne cc hcd hcc]
        exact w.yes_size_eq cc (by omega)
    · -- nodup_each
      intro cc hcc
      beta_reduce
      by_cases hcd : cc = d
      · subst hcd
        rw [if_pos (Eq.refl d), if_pos (Eq.refl d)]
        rw [List.append_nil]
        exact yesL_nodup w hclt
      · rw [if_neg hcd, if_neg hcd]
        exact w.nodup_each cc (by omega)
    · -- disj
      intro cc cc' hcc hcc' x hx hx'
      beta_reduce at hx hx'
      exact w.disj cc cc' (by omega) (by omega) x (hsubmem cc x hx) (hsubmem cc' x hx')
  · -- split branch: a fresh class receives the smaller sublist
    rcases hcase with ⟨hlt, hn, ho⟩ | ⟨hlt, hn, ho⟩
    · subst hn
      subst ho
      refine wf_splitRefine_core w hc0 hclt hC hrel ?_ ?_ (Or.inl ⟨rfl, rfl⟩)
        ?_ ?_ rfl rfl rfl rfl
      · show IsDLL p.elements_ (-1) cl.no_head (w.noL d)
        have hh := w.dll_no d hclt
        rw [← hclv] at hh
        exact hh
      · show IsDLL p.elements_ (-1) cl.yes_head (w.yesL d)
        have hh := w.dll_yes d hclt
        rw [← hclv] at hh
        exact hh
      · show ((w.noL d).length : Int) = cl.size - cl.yes_size
        have hs := w.size_eq d hclt
        have hy := w.yes_size_eq d hclt
        rw [← hclv] at hs hy
        omega
      · show ((w.yesL d).length : Int) = cl.yes_size
        have hy := w.yes_size_eq d hclt
        rw [← hclv] at hy
        exact hy
    · subst hn
      subst ho
      refine wf_splitRefine_core w hc0 hclt hC hrel ?_ ?_ (Or.inr ⟨rfl, rfl⟩)
        ?_ ?_ rfl rfl rfl rfl
      · show IsDLL p.elements_ (-1) cl.yes_head (w.yesL d)
        have hh := w.dll_yes d hclt
        rw [← hclv] at hh
        exact hh
      · show IsDLL p.elements_ (-1) cl.no_head (w.noL d)
        have hh := w.dll_no d hclt
        rw [← hclv] at hh
        exact hh
      · show ((w.yesL d).length : Int) = cl.yes_size
        have hy := w.yes_size_eq d hclt
        rw [← hclv] at hy
        exact hy
      · show ((w.noL d).length : Int) = cl.size - cl.yes_size
        have hs := w.size_eq d hclt
        have hy := w.yes_size_eq d hclt
        rw [← hclv] at hs hy
        omega

/-- WF preservation by the FinalizeSplit loop over the visited classes. -/
theorem wf_fsLoop : ∀ (cs : List Int) (p : Partition) (L : Option (List Int))
    {res : Partition × Option (List Int)},
    WF p → fsLoop cs p L = Except.ok res → WF res.1
  | [], p, L, res, hw, h => by
    simp only [fsLoop, pure, Except.pure, Except.ok.injEq] at h
    subst h
    exact hw
  | c :: rest, p, L, res, hw, h => by
    rw [fsLoop] at h
    rcases hsr : SplitRefine p c with err | r0 <;> rw [hsr] at h
    · exact absurd h (by simp [error_bind])
    · rw [ok_bind] at h
      obtain ⟨w⟩ := hw
      exact wf_fsLoop rest r0.2 _ (wf_splitRefine w hsr) h

/-- The FinalizeSplit loop never changes the sum of the stored class sizes. -/
theorem sum_fsLoop : ∀ (cs : List Int) (p : Partition) (L : Option (List Int))
    {res : Partition × Option (List Int)},
    fsLoop cs p L = Except.ok res → sumSizes res.1 = sumSizes p
  | [], p, L, res, h => by
    simp only [fsLoop, pure, Except.pure, Except.ok.injEq] at h
    subst h
    rfl
  | c :: rest, p, L, res, h => by
    rw [fsLoop] at h
    rcases hsr : SplitRefine p c with err | r0 <;> rw [hsr] at h
    · exact absurd h (by simp [error_bind])
    · rw [ok_bind] at h
      rw [sum_fsLoop rest r0.2 _ h]
      exact sum_splitRefine hsr

/-- WF preservation by FinalizeSplit: the loop preserves it, and clearing
visited_classes_ and bumping the epoch counter leave the linked structure
untouched. -/
theorem wf_finalizeSplit {p : Partition} {L : Option (List Int)}
    {res : Partition × Option (List Int)} (hw : WF p)
    (h : FinalizeSplit p L = Except.ok res) : WF res.1 := by
  rw [FinalizeSplit] at h
  rcases hfs : fsLoop p.visited_classes_ p L with err | r <;> rw [hfs] at h
  · exact absurd h (by simp [error_bind])
  · rw [ok_bind] at h
    simp only [pure, Except.pure, Except.ok.injEq] at h
    subst h
    obtain ⟨w1⟩ := wf_fsLoop _ _ _ hw hfs
    exact ⟨⟨w1.noL, w1.yesL, w1.dll_no, w1.dll_yes, w1.size_eq, w1.yes_size_eq,
      w1.nodup_each, w1.disj⟩⟩

/-- FinalizeSplit never changes the sum of the stored class sizes. -/
theorem sum_finalizeSplit {p : Partition} {L : Option (List Int)}
    {res : Partition × Option (List Int)}
    (h : FinalizeSplit p L = Except.ok res) : sumSizes res.1 = sumSizes p := by
  rw [FinalizeSplit] at h
  rcases hfs : fsLoop p.visited_classes_ p L with err | r <;> rw [hfs] at h
  · exact absurd h (by simp [error_bind])
  · rw [ok_bind] at h
    simp only [pure, Except.pure, Except.ok.injEq] at h
    subst h
    have hs : sumSizes r.1 = sumSizes p := sum_fsLoop _ _ _ hfs
    exact hs

theorem wf_c5P0 : WF c5P0 := by
  have hl : c5P0.classes_.length = 1 := rfl
  refine ⟨⟨fun _ => [], fun _ => [], ?_, ?_, ?_, ?_, ?_, ?_⟩⟩
  · intro c hc
    have hc0 : c = 0 := by omega
    subst hc0
    have hg : c5P0.classes_.get ⟨0, hc⟩ = PClass.init := rfl
    rw [hg]
    exact .nil (by decide)
  · intro c hc
    have hc0 : c = 0 := by omega
    subst hc0
    have hg : c5P0.classes_.get ⟨0, hc⟩ = PClass.init := rfl
    rw [hg]
    exact .nil (by decide)
  · intro c hc
    have hc0 : c = 0 := by omega
    subst hc0
    have hg : c5P0.classes_.get ⟨0, hc⟩ = PClass.init := rfl
    rw [hg]
    decide
  · intro c hc
    have hc0 : c = 0 := by omega
    subst hc0
    have hg : c5P0.classes_.get ⟨0, hc⟩ = PClass.init := rfl
    rw [hg]
    decide
  · intro c hc
    show (([] : List Nat) ++ ([] : List Nat)).Nodup
    decide
  · intro c c' hc hc' x hx hx'
    have hc0 : c = 0 := by omega
    have hc1 : c' = 0 := by omega
    omega

theorem wf_c5P1 : WF c5P1 := by
  have hl : c5P1.classes_.length = 1 := rfl
  refine ⟨⟨fun _ => [0], fun _ => [], ?_, ?_, ?_, ?_, ?_, ?_⟩⟩
  · intro c hc
    have hc0 : c = 0 := by omega
    subst hc0
    have hg : c5P1.classes_.get ⟨0, hc⟩ = ⟨1, 0, 0, -1⟩ := rfl
    rw [hg]
    exact .cons (by decide) (by decide) (by decide) (.nil (by decide))
  · intro c hc
    have hc0 : c = 0 := by omega
    subst hc0
    have hg : c5P1.classes_.get ⟨0, hc⟩ = ⟨1, 0, 0, -1⟩ := rfl
    rw [hg]
    exact .nil (by decide)
  · intro c hc
    have hc0 : c = 0 := by omega
    subst hc0
    have hg : c5P1.classes_.get ⟨0, hc⟩ = ⟨1, 0, 0, -1⟩ := rfl
    rw [hg]
    decide
  · intro c hc
    have hc0 : c = 0 := by omega
    subst hc0
    have hg : c5P1.classes_.get ⟨0, hc⟩ = ⟨1, 0, 0, -1⟩ := rfl
    rw [hg]
    decide
  · intro c hc
    show (([0] : List Nat) ++ ([] : List Nat)).Nodup
    decide
  · intro c c' hc hc' x hx hx'
    have hc0 : c = 0 := by omega
    have hc1 : c' = 0 := by omega
    omega

/-- C5 (corrected): on a well-formed partition the sum of the stored class
sizes equals the number of elements linked into some class sublist (not the
raw element count), per class the ordinary-sublist length plus the stored
distinguished size equals the stored size, and the operations preserve this:
Add of an element on no sublist grows the size sum by exactly one, while
Move and SplitOn of an element on its class's ordinary sublist, SplitRefine,
and FinalizeSplit keep the size sum unchanged and preserve well-formedness. -/
theorem C5_size_conservation :
    (∀ p : Partition, WF p → sumSizes p = (assignedCount p : Int)) ∧
    (∀ (p : Partition) (c : Nat) (hc : c < p.classes_.length), WF p →
      ((ordinaryList p c).length : Int) + (p.classes_.get ⟨c, hc⟩).yes_size =
        (p.classes_.get ⟨c, hc⟩).size) ∧
    (∀ (p p' : Partition) (e c : Int), WF p →
      (∀ cc, cc < p.classes_.length →
        e.toNat ∉ ordinaryList p cc ∧ e.toNat ∉ distinguishedList p cc) →
      Add p e c = Except.ok p' → WF p' ∧ sumSizes p' = sumSizes p + 1) ∧
    (∀ (p p' : Partition) (e c : Int), WF p →
      (∀ el, idx p.elements_ e = Except.ok el →
        e.toNat ∈ ordinaryList p el.class_id.toNat) →
      Move p e c = Except.ok p' → WF p' ∧ sumSizes p' = sumSizes p) ∧
    (∀ (p p' : Partition) (e : Int), WF p →
      (∀ el, idx p.elements_ e = Except.ok el → el.yes ≠ p.yes_counter_ →
        e.toNat ∈ ordinaryList p el.class_id.toNat) →
      SplitOn p e = Except.ok p' → WF p' ∧ sumSizes p' = sumSizes p) ∧
    (∀ (p : Partition) (c : Int) (r : Int × Partition), WF p →
      SplitRefine p c = Except.ok r → WF r.2 ∧ sumSizes r.2 = sumSizes p) ∧
    (∀ (p : Partition) (L : Option (List Int)) (res : Partition × Option (List Int)),
      WF p → FinalizeSplit p L = Except.ok res → WF res.1 ∧ sumSizes res.1 = sumSizes p) := by
  refine ⟨?_, ?_, ?_, ?_, ?_, ?_, ?_⟩
  · intro p hw
    obtain ⟨w⟩ := hw
    exact sumSizes_eq_assigned w
  · intro p c hc hw
    obtain ⟨w⟩ := hw
    rw [ordinaryList_eq w hc]
    exact w.size_eq c hc
  · intro p p' e c hw hun h
    obtain ⟨w⟩ := hw
    refine ⟨wf_add w ?_ h, sum_add h⟩
    intro cc hcc
    have hh := hun cc hcc
    rw [ordinaryList_eq w hcc, distinguishedList_eq w hcc] at hh
    exact hh
  · intro p p' e c hw hm h
    obtain ⟨w⟩ := hw
    refine ⟨wf_move w ?_ h, sum_move h⟩
    intro el hel
    obtain ⟨el0, ocl, hel0, h2a, hcl0, h2b⟩ := move_ok_shape h
    rw [hel] at hel0
    have hee := Except.ok.inj hel0
    rw [← hee] at hcl0
    obtain ⟨h3a, hcidlt, h3b⟩ := idx_ok_elim hcl0
    have h2 := hm el hel
    rw [ordinaryList_eq w hcidlt] at h2
    exact h2
  · intro p p' e hw hm h
    obtain ⟨w⟩ := hw
    refine ⟨wf_splitOn w ?_ h, sum_splitOn h⟩
    intro el hel hy
    rcases splitOn_ok_shape h with ⟨el0, hel0, hy0, h4⟩ | ⟨el0, cl0, hel0, hy0, hcl0, h4⟩
    · rw [hel] at hel0
      have hee := Except.ok.inj hel0
      rw [← hee] at hy0
      exact absurd hy0 hy
    · rw [hel] at hel0
      have hee := Except.ok.inj hel0
      rw [← hee] at hcl0
      obtain ⟨h3a, hcidlt, h3b⟩ := idx_ok_elim hcl0
      have h2 := hm el hel hy
      rw [ordinaryList_eq w hcidlt] at h2
      exact h2
  · intro p c r hw h
    obtain ⟨w⟩ := hw
    exact ⟨wf_splitRefine w h, sum_splitRefine h⟩
  · intro p L res hw h
    exact ⟨wf_finalizeSplit hw h, sum_finalizeSplit h⟩

/-- C5 counterexample to the literal claim: after initialize(2);
add_class(); add(0,0) (a reachable state between operations), the sum of
class_size over all classes is 1 while the element count is 2: the sum
equals the number of ADDED elements, not the element count. -/
theorem C5_counterexample :
    (c5MidRun.map sumSizes) = Except.ok 1 ∧
    (c5MidRun.map (fun p => (p.elements_.length : Int))) = Except.ok 2 ∧
    (1 : Int) ≠ 2 :=
  ⟨by decide, by decide, by decide⟩

/-- C5 witness: all seven conjuncts instantiated on concrete one-element
partitions, with every hypothesis discharged by computation. -/
theorem C5_size_conservation_witness :
    sumSizes c5P0 = (assignedCount c5P0 : Int) ∧
    ((ordinaryList c5P1 0).length : Int) + (c5P1.classes_.get ⟨0, by decide⟩).yes_size =
      (c5P1.classes_.get ⟨0, by decide⟩).size ∧
    (WF c5P1 ∧ sumSizes c5P1 = sumSizes c5P0 + 1) ∧
    (WF c5P1 ∧ sumSizes c5P1 = sumSizes c5P1) ∧
    (WF c5P1s ∧ sumSizes c5P1s = sumSizes c5P1) ∧
    (WF c5P1r ∧ sumSizes c5P1r = sumSizes c5P1) ∧
    (WF c5P1f ∧ sumSizes c5P1f = sumSizes c5P1) := by
  obtain ⟨h1, h2, h3, h4, h5, h6, h7⟩ := C5_size_conservation
  refine ⟨h1 c5P0 wf_c5P0, h2 c5P1 0 (by decide) wf_c5P1,
    h3 c5P0 c5P1 0 0 wf_c5P0 ?_ (by decide),
    h4 c5P1 c5P1 0 0 wf_c5P1 ?_ (by decide),
    h5 c5P1 c5P1s 0 wf_c5P1 ?_ (by decide),
    h6 c5P1 0 (1, c5P1r) wf_c5P1 (by decide),
    h7 c5P1 none (c5P1f, none) wf_c5P1 (by decide)⟩
  · intro cc hcc
    have hl : c5P0.classes_.length = 1 := rfl
    have hcc0 : cc = 0 := by omega
    subst hcc0
    exact ⟨by decide, by decide⟩
  · intro el hel
    have hi : idx c5P1.elements_ 0 = Except.ok ⟨0, 0, -1, -1⟩ := by decide
    rw [hi] at hel
    have hee := Except.ok.inj hel
    rw [← hee]
    decide
  · intro el hel hy
    have hi : idx c5P1.elements_ 0 = Except.ok ⟨0, 0, -1, -1⟩ := by decide
    rw [hi] at hel
    have hee := Except.ok.inj hel
    rw [← hee]
    decide

end Fst
